import Mathlib

/-!
Verification of the pointcloud-to-voxelprint core against its specification.

The JavaScript sources are shallowly embedded: JS `number` values that hold
real quantities are modelled as exact rationals (`ℚ`), byte/word values as
`ℕ` with explicit `% 2^w` where the code truncates, arrays as `List`,
mutation as explicit state passing, and every loop as structural recursion
on an explicit fuel counter large enough for the loop (so all definitions
compute by kernel reduction).  Where the source takes a square root only to
report a distance, the embedding carries the squared distance instead so as
to stay in `ℚ`; comparisons against caps are carried out on squares, which
is equivalent for nonnegative quantities.
-/

/-! ## Point3D (src/classes/Point3D.js) -/

/-- Optional RGBA color of a point, channels 0–255; `a` may be absent. -/
structure PColor where
  r : ℕ
  g : ℕ
  b : ℕ
  a : Option ℕ
deriving DecidableEq, Repr

/-- A 3-D point with optional color, from `src/classes/Point3D.js`. -/
structure Point3D where
  x : ℚ
  y : ℚ
  z : ℚ
  color : Option PColor := none
deriving DecidableEq, Repr

instance : Inhabited Point3D := ⟨{ x := 0, y := 0, z := 0, color := none }⟩

/-- Coordinate selector used throughout `ply.js`:
`axis === 0 ? p.x : axis === 1 ? p.y : p.z`. -/
def coordOf (p : Point3D) (axis : ℕ) : ℚ :=
  if axis = 0 then p.x else if axis = 1 then p.y else p.z

/-! ## k-d tree construction (src/classes/ply.js, `buildKdTree`)

The JS code keeps the points in a fixed array and permutes an index array
`idxs` in place with a quickselect.  The embedding threads the index list
through every helper.  Ranges `lo`, `hi`, pivot positions and `store` are
integers, as in the source, because `hi` legitimately becomes `-1`. -/

/-- The in-place `swap` helper of `buildKdTree`, on a list. -/
def lswap (l : List ℕ) (a b : ℤ) : List ℕ :=
  let va := l.getD a.toNat 0
  let vb := l.getD b.toNat 0
  (l.set a.toNat vb).set b.toNat va

/-- List of integers `lo, lo+1, …, hi-1` (the loop range of `partition`). -/
def rangeZ (lo hi : ℤ) : List ℤ :=
  (List.range (hi - lo).toNat).map (fun k => lo + Int.ofNat k)

/-- Coordinate of the point referenced by position `i` of the index list. -/
def valAt (points : List Point3D) (arr : List ℕ) (i : ℤ) (axis : ℕ) : ℚ :=
  coordOf (points.getD (arr.getD i.toNat 0) default) axis

/-- Body of the `for (let i = lo; i < hi; i++)` loop of `partition`:
elements with coordinate strictly below the pivot value are swapped to the
front, `store` counts them. -/
def partitionLoop (points : List Point3D) (axis : ℕ) (pivotVal : ℚ) :
    List ℤ → List ℕ × ℤ → List ℕ × ℤ
  | [], st => st
  | i :: rest, (arr, store) =>
      if valAt points arr i axis < pivotVal then
        partitionLoop points axis pivotVal rest (lswap arr store i, store + 1)
      else
        partitionLoop points axis pivotVal rest (arr, store)

/-- The `partition` helper of `buildKdTree`: Lomuto partition of
`arr[lo..hi]` around the value at `pivotIdx`; returns the permuted index
list and the final pivot position `store`. -/
def partitionKd (points : List Point3D) (arr : List ℕ) (lo hi pivotIdx : ℤ)
    (axis : ℕ) : List ℕ × ℤ :=
  let pivotVal := valAt points arr pivotIdx axis
  let arr1 := lswap arr pivotIdx hi
  let res := partitionLoop points axis pivotVal (rangeZ lo hi) (arr1, lo)
  (lswap res.1 res.2 hi, res.2)

/-- The `selectK` helper (quickselect): narrows `[lo,hi]` until the pivot
lands at `k`.  Fuel bounds the number of iterations; `(hi-lo).toNat + 1`
always suffices because the range shrinks strictly. -/
def selectK (points : List Point3D) (axis : ℕ) :
    ℕ → List ℕ → ℤ → ℤ → ℤ → List ℕ
  | 0, arr, _, _, _ => arr
  | fuel + 1, arr, lo, hi, k =>
      if lo < hi then
        let res := partitionKd points arr lo hi ((lo + hi) / 2) axis
        if k = res.2 then res.1
        else if k < res.2 then selectK points axis fuel res.1 lo (res.2 - 1) k
        else selectK points axis fuel res.1 (res.2 + 1) hi k
      else arr

/-- Node of the k-d tree: point reference, split axis, children
(`{ p, axis, left, right }` in the source). -/
inductive KdNode where
  | node (p : Point3D) (axis : ℕ) (left right : Option KdNode)

/-- The recursive `build` of `buildKdTree`.  The source mutates the shared
`idxs` array; here the index list is threaded: the left build's resulting
list feeds the right build.  Fuel `(hi-lo).toNat + 2` from the top call is
always sufficient. -/
def buildKd (points : List Point3D) :
    ℕ → List ℕ → ℤ → ℤ → ℕ → Option KdNode × List ℕ
  | 0, arr, _, _, _ => (none, arr)
  | fuel + 1, arr, lo, hi, depth =>
      if lo > hi then (none, arr)
      else
        let axis := depth % 3
        let mid := (lo + hi) / 2
        let arr1 := selectK points axis ((hi - lo).toNat + 1) arr lo hi mid
        let iMid := arr1.getD mid.toNat 0
        let lres := buildKd points fuel arr1 lo (mid - 1) (depth + 1)
        let rres := buildKd points fuel lres.2 (mid + 1) hi (depth + 1)
        (some (.node (points.getD iMid default) axis lres.1 rres.1), rres.2)

/-- `buildKdTree(points)`: build over the index permutation `0,…,n-1`,
starting at depth 0 on the full range. -/
def buildKdTree (points : List Point3D) : Option KdNode :=
  if points.length = 0 then none
  else
    (buildKd points (points.length + 1) (List.range points.length)
      0 ((points.length : ℤ) - 1) 0).1

/-! ## Nearest-neighbour query (src/classes/ply.js, `nearestPoint`) -/

/-- Options object accepted by `nearestPoint` as used by the callers in
`src/index.js`; the function body reads only `axes` and `maxDistance`
(`maxDistanceX/Y/Z` appear at call sites but are never read). -/
structure NearestOpts where
  axes : Option String := none
  maxDistance : Option ℚ := none
  maxDistanceX : Option ℚ := none
  maxDistanceY : Option ℚ := none
  maxDistanceZ : Option ℚ := none
deriving DecidableEq, Repr

/-- The `maskFromAxes` helper: x=1, y=2, z=4, default `xyz`. -/
def maskFromAxes (axes : String) : ℕ :=
  if axes = "x" then 1
  else if axes = "y" then 2
  else if axes = "z" then 4
  else if axes = "xy" then 1 ||| 2
  else if axes = "xz" then 1 ||| 4
  else if axes = "yz" then 2 ||| 4
  else 1 ||| 2 ||| 4

/-- Current pruning bound: the source keeps `bestD2`, initialised to
`maxD*maxD` (`+∞` when no finite cap is given, modelled as `none`) and
overwritten by the squared distance of each accepted candidate.  It thus
always equals the accepted best's squared distance once `best` is set. -/
def bestBound (best : Option (Point3D × ℚ)) (maxD2 : Option ℚ) : Option ℚ :=
  match best with
  | some pd => some pd.2
  | none => maxD2

/-- Comparison `d < bound` where `bound = none` stands for `Infinity`. -/
def ltBound (d : ℚ) (bound : Option ℚ) : Bool :=
  match bound with
  | none => true
  | some b => decide (d < b)

/-- Push an optional child on the traversal stack (`if (c) stack.push(c)`). -/
def pushOpt (c : Option KdNode) (s : List KdNode) : List KdNode :=
  match c with
  | some n => n :: s
  | none => s

/-- Squared distance from target `t` to point `p` over the active axes
(inactive axes contribute 0), exactly the `dx*dx + dy*dy + dz*dz` of the
source. -/
def maskedSqDist (axesMask : ℕ) (t : ℚ × ℚ × ℚ) (p : Point3D) : ℚ :=
  let dx := if axesMask &&& 1 ≠ 0 then p.x - t.1 else 0
  let dy := if axesMask &&& 2 ≠ 0 then p.y - t.2.1 else 0
  let dz := if axesMask &&& 4 ≠ 0 then p.z - t.2.2 else 0
  dx * dx + dy * dy + dz * dz

/-- The `while (stack.length)` traversal of `nearestPoint`.  Each node is
pushed at most once (children only when their parent is popped), so fuel
`size of tree + 1` suffices; exhausted fuel returns the current best, which
keeps every invariant below intact. -/
def nearestGo (axesMask : ℕ) (t : ℚ × ℚ × ℚ) (maxD2 : Option ℚ) :
    ℕ → List KdNode → Option (Point3D × ℚ) → Option (Point3D × ℚ)
  | 0, _, best => best
  | _ + 1, [], best => best
  | fuel + 1, KdNode.node p axis left right :: rest, best =>
      let d2 := maskedSqDist axesMask t p
      let best' := if ltBound d2 (bestBound best maxD2) then some (p, d2) else best
      let axisBit := 2 ^ axis
      if axesMask &&& axisBit = 0 then
        nearestGo axesMask t maxD2 fuel (pushOpt right (pushOpt left rest)) best'
      else
        let diff :=
          if axis = 0 then t.1 - p.x else if axis = 1 then t.2.1 - p.y else t.2.2 - p.z
        let near := if diff < 0 then left else right
        let far := if diff < 0 then right else left
        let s1 := pushOpt near rest
        let s2 := if ltBound (diff * diff) (bestBound best' maxD2) then pushOpt far s1 else s1
        nearestGo axesMask t maxD2 fuel s2 best'

/-- Number of nodes of a k-d (sub)tree. -/
def kdSize : Option KdNode → ℕ
  | none => 0
  | some (.node _ _ l r) => 1 + kdSize l + kdSize r

/-- The point store: points, precomputed bounds and k-d root, as built by
the `PLY` constructor. -/
structure PLYStore where
  points : List Point3D
  kdRoot : Option KdNode
  bmin : ℚ × ℚ × ℚ
  bmax : ℚ × ℚ × ℚ

/-- The `#computeBounds` pass: a min/max fold over all points, `(0,0,0)` for
both bounds when the store is empty.  The source starts the fold from
`±Infinity`; after the first point the accumulator equals that point's
coordinates, so the fold over a nonempty list is started from the head. -/
def computeBounds (points : List Point3D) : (ℚ × ℚ × ℚ) × (ℚ × ℚ × ℚ) :=
  match points with
  | [] => ((0, 0, 0), (0, 0, 0))
  | p :: rest =>
      rest.foldl
        (fun (acc : (ℚ × ℚ × ℚ) × (ℚ × ℚ × ℚ)) q =>
          (((min acc.1.1 q.x), (min acc.1.2.1 q.y), (min acc.1.2.2 q.z)),
           ((max acc.2.1 q.x), (max acc.2.2.1 q.y), (max acc.2.2.2 q.z))))
        ((p.x, p.y, p.z), (p.x, p.y, p.z))

/-- Construct the store as the `PLY` constructor does after parsing. -/
def mkPLY (points : List Point3D) : PLYStore :=
  let b := computeBounds points
  { points := points, kdRoot := buildKdTree points, bmin := b.1, bmax := b.2 }

/-- `nearestPoint(target, opts)`: axes default `"xyz"`, isotropic cap
squared (absent cap = `Infinity` = `none`); per-axis caps in `opts` are not
read, faithfully to the source.  Returns the best point with its squared
distance (the source reports `Math.sqrt(bestD2)`). -/
def nearestPoint (ply : PLYStore) (t : ℚ × ℚ × ℚ) (opts : NearestOpts) :
    Option (Point3D × ℚ) :=
  let axesMask := maskFromAxes (opts.axes.getD "xyz")
  let maxD2 : Option ℚ := opts.maxDistance.map (fun m => m * m)
  match ply.kdRoot with
  | none => none
  | some root =>
      nearestGo axesMask t maxD2 (kdSize (some root) + 1) [root] none

/-! ## Tree predicates and basic query facts -/

/-- All points stored in a (sub)tree. -/
def treePts : Option KdNode → List Point3D
  | none => []
  | some (.node p _ l r) => p :: (treePts l ++ treePts r)

/-- The k-d invariant as the specification states it (strict on the left):
at every node with axis `a`, left-subtree points have `coord_a` strictly
below the node's, right-subtree points have `coord_a ≥` the node's, and the
axis at depth `d` is `d % 3`. -/
def KdStrictP : Option KdNode → ℕ → Prop
  | none, _ => True
  | some (.node p axis l r), d =>
      axis = d % 3 ∧
      (∀ q ∈ treePts l, coordOf q axis < coordOf p axis) ∧
      (∀ q ∈ treePts r, coordOf p axis ≤ coordOf q axis) ∧
      KdStrictP l (d + 1) ∧ KdStrictP r (d + 1)

/-- Full squared Euclidean distance between a point and a target triple. -/
def sqDist (p : Point3D) (t : ℚ × ℚ × ℚ) : ℚ :=
  (p.x - t.1) * (p.x - t.1) + (p.y - t.2.1) * (p.y - t.2.1) +
    (p.z - t.2.2) * (p.z - t.2.2)

/-- Soundness invariant of the `nearestPoint` traversal: any returned hit
comes from one of the stacked subtrees (hence from the store), its reported
squared distance is the true masked squared distance to the target, and it
beats any finite isotropic cap strictly. -/
theorem nearestGo_inv (axesMask : ℕ) (t : ℚ × ℚ × ℚ) (maxD2 : Option ℚ)
    (P0 : Point3D → Prop) :
    ∀ (fuel : ℕ) (stack : List KdNode) (best : Option (Point3D × ℚ)),
      (∀ n ∈ stack, ∀ q ∈ treePts (some n), P0 q) →
      (∀ p d, best = some (p, d) →
        P0 p ∧ d = maskedSqDist axesMask t p ∧ ∀ M, maxD2 = some M → d < M) →
      ∀ p d, nearestGo axesMask t maxD2 fuel stack best = some (p, d) →
        P0 p ∧ d = maskedSqDist axesMask t p ∧ ∀ M, maxD2 = some M → d < M := by
  intro fuel
  induction fuel with
  | zero => intro stack best _ hbest p d hres; exact hbest p d hres
  | succ fuel ih =>
    intro stack best hstack hbest p d hres
    match stack with
    | [] => exact hbest p d hres
    | KdNode.node q axis l r :: rest =>
      have hq : P0 q := hstack _ (List.mem_cons_self _ _) q (by simp [treePts])
      have hsub : ∀ n s, (∀ m ∈ s, ∀ x ∈ treePts (some m), P0 x) →
          (∀ x ∈ treePts n, P0 x) → ∀ m ∈ pushOpt n s, ∀ x ∈ treePts (some m), P0 x := by
        intro n s hs hn m hm x hx
        cases n with
        | none => exact hs m hm x hx
        | some nn =>
          rcases List.mem_cons.mp hm with h | h
          · exact hn x (h ▸ hx)
          · exact hs m h x hx
      have hrest : ∀ m ∈ rest, ∀ x ∈ treePts (some m), P0 x := by
        intro m hm; exact hstack m (List.mem_cons_of_mem _ hm)
      have hl : ∀ x ∈ treePts l, P0 x := by
        intro x hx
        exact hstack _ (List.mem_cons_self _ _) x (by simp [treePts]; right; left; exact hx)
      have hr : ∀ x ∈ treePts r, P0 x := by
        intro x hx
        exact hstack _ (List.mem_cons_self _ _) x (by simp [treePts]; right; right; exact hx)
      set d2 := maskedSqDist axesMask t q with hd2
      have hbest' : ∀ p' d',
          (if ltBound d2 (bestBound best maxD2) then some (q, d2) else best) = some (p', d') →
          P0 p' ∧ d' = maskedSqDist axesMask t p' ∧ ∀ M, maxD2 = some M → d' < M := by
        intro p' d' h
        by_cases hcond : ltBound d2 (bestBound best maxD2) = true
        · rw [if_pos hcond] at h
          injection h with h'
          injection h' with hp hd
          subst hp; subst hd
          refine ⟨hq, rfl, ?_⟩
          intro M hM
          subst hM
          cases hb : best with
          | none =>
            rw [hb] at hcond
            simpa [ltBound, bestBound] using hcond
          | some pd =>
            rw [hb] at hcond
            have : d2 < pd.2 := by simpa [ltBound, bestBound] using hcond
            have h2 := (hbest pd.1 pd.2 (by rw [hb])).2.2 M rfl
            exact lt_trans this h2
        · rw [if_neg hcond] at h
          exact hbest p' d' h
      simp only [nearestGo] at hres
      by_cases hmask : axesMask &&& 2 ^ axis = 0
      · rw [if_pos hmask] at hres
        exact ih _ _ (hsub r _ (hsub l rest hrest hl) hr) hbest' p d hres
      · rw [if_neg hmask] at hres
        set diff := if axis = 0 then t.1 - q.x else if axis = 1 then t.2.1 - q.y else t.2.2 - q.z
        set best' := if ltBound d2 (bestBound best maxD2) then some (q, d2) else best
        set near := if diff < 0 then l else r
        set far := if diff < 0 then r else l
        have hnear : ∀ x ∈ treePts near, P0 x := by
          by_cases hdf : diff < 0
          · simp only [near, if_pos hdf]; exact hl
          · simp only [near, if_neg hdf]; exact hr
        have hfar : ∀ x ∈ treePts far, P0 x := by
          by_cases hdf : diff < 0
          · simp only [far, if_pos hdf]; exact hr
          · simp only [far, if_neg hdf]; exact hl
        by_cases hprune : ltBound (diff * diff) (bestBound best' maxD2) = true
        · rw [if_pos hprune] at hres
          exact ih _ _ (hsub far _ (hsub near rest hrest hnear) hfar) hbest' p d hres
        · rw [if_neg hprune] at hres
          exact ih _ _ (hsub near rest hrest hnear) hbest' p d hres

/-- Any hit returned by `nearestPoint` lies in the tree, reports its true
masked squared distance, and is strictly below any finite isotropic cap. -/
theorem nearestPoint_sound (ply : PLYStore) (t : ℚ × ℚ × ℚ) (opts : NearestOpts)
    (p : Point3D) (d : ℚ) (h : nearestPoint ply t opts = some (p, d)) :
    p ∈ treePts ply.kdRoot ∧
      d = maskedSqDist (maskFromAxes (opts.axes.getD "xyz")) t p ∧
      ∀ R, opts.maxDistance = some R → d < R * R := by
  unfold nearestPoint at h
  cases hroot : ply.kdRoot with
  | none => rw [hroot] at h; simp at h
  | some root =>
    rw [hroot] at h
    have key := nearestGo_inv (maskFromAxes (opts.axes.getD "xyz")) t
      (opts.maxDistance.map (fun m => m * m)) (fun q => q ∈ treePts (some root))
      (kdSize (some root) + 1) [root] none
      (by intro n hn q hq; rcases List.mem_singleton.mp hn with rfl; exact hq)
      (by intro p' d' h'; cases h') p d h
    exact ⟨key.1, key.2.1, fun R hR => key.2.2 (R * R) (by rw [hR]; rfl)⟩

/-! ## Small computation lemmas used to evaluate concrete queries -/

theorem maskFromAxes_xyz : maskFromAxes "xyz" = 7 := by decide

theorem land71 : (7 : ℕ) &&& 1 = 1 := rfl

theorem land72 : (7 : ℕ) &&& 2 = 2 := rfl

theorem land74 : (7 : ℕ) &&& 4 = 4 := rfl

theorem land7p0 : (7 : ℕ) &&& 2 ^ 0 = 1 := rfl

theorem land7p1 : (7 : ℕ) &&& 2 ^ 1 = 2 := rfl

theorem land7p2 : (7 : ℕ) &&& 2 ^ 2 = 4 := rfl

/-! ## Claims about the nearest-neighbour query -/

/-- C1: the per-axis caps are ignored by `nearestPoint`: on a store holding
only the origin, the query at `(0,0,1)` with `maxDistanceZ = 1/20` still
returns the origin although its z-delta is 1, far above the cap.  (The
function body reads only `opts.axes` and `opts.maxDistance`; the
`maxDistanceX/Y/Z` fields passed by `src/index.js` are never consulted.) -/
theorem c1_per_axis_caps_ignored :
    nearestPoint (mkPLY [{ x := 0, y := 0, z := 0 }]) (0, 0, 1)
        { maxDistanceZ := some (1 / 20) } =
      some ({ x := 0, y := 0, z := 0 }, 1) ∧
    ¬ (|(0 : ℚ) - 1| ≤ 1 / 20) := by
  constructor
  · norm_num [nearestPoint, mkPLY, buildKdTree, buildKd, selectK, partitionKd,
      partitionLoop, rangeZ, lswap, valAt, coordOf, nearestGo, maskedSqDist,
      maskFromAxes_xyz, land71, land72, land74, land7p0, land7p1, land7p2,
      bestBound, ltBound, pushOpt, kdSize, treePts, computeBounds]
  · norm_num

/-- C3 counterexample: one point at Euclidean distance exactly `R = 1` from
the target, queried with `max_distance = 1`; the claim says the point is
accepted, but the source compares `d2 < bestD2` strictly and returns
nothing. -/
theorem c3_counterexample :
    sqDist { x := 1, y := 0, z := 0 } (0, 0, 0) = 1 * 1 ∧
    nearestPoint (mkPLY [{ x := 1, y := 0, z := 0 }]) (0, 0, 0)
        { maxDistance := some 1 } = none := by
  constructor
  · norm_num [sqDist]
  · norm_num [nearestPoint, mkPLY, buildKdTree, buildKd, selectK, partitionKd,
      partitionLoop, rangeZ, lswap, valAt, coordOf, nearestGo, maskedSqDist,
      maskFromAxes_xyz, land71, land72, land74, land7p0, land7p1, land7p2,
      bestBound, ltBound, pushOpt, kdSize, treePts, computeBounds]

/-- C3 (amended): the isotropic `max_distance` cap is a strict (exclusive)
upper bound: every hit returned by a capped query has squared distance
strictly below `R²`, so a point at distance exactly `R` is never
returned. -/
theorem c3_exclusive_cap (ply : PLYStore) (t : ℚ × ℚ × ℚ) (opts : NearestOpts)
    (R : ℚ) (p : Point3D) (d2 : ℚ) (hR : opts.maxDistance = some R)
    (h : nearestPoint ply t opts = some (p, d2)) : d2 < R * R :=
  (nearestPoint_sound ply t opts p d2 h).2.2 R hR

/-- Witness for `c3_exclusive_cap`: a concrete capped query that does
return a hit, whose squared distance is below the squared cap. -/
theorem c3_exclusive_cap_witness : (1 : ℚ) / 4 < 1 * 1 :=
  c3_exclusive_cap (mkPLY [{ x := 1 / 2, y := 0, z := 0 }]) (0, 0, 0)
    { maxDistance := some 1 } 1 { x := 1 / 2, y := 0, z := 0 } (1 / 4) rfl
    (by norm_num [nearestPoint, mkPLY, buildKdTree, buildKd, selectK,
      partitionKd, partitionLoop, rangeZ, lswap, valAt, coordOf, nearestGo,
      maskedSqDist, maskFromAxes_xyz, land71, land72, land74, land7p0, land7p1,
      land7p2, bestBound, ltBound, pushOpt, kdSize, treePts, computeBounds])

/-- C10: a query against an empty point store returns nothing (for every
target and every options value), and the empty store's precomputed bounds
are `min = max = (0,0,0)`. -/
theorem c10_empty_store (t : ℚ × ℚ × ℚ) (opts : NearestOpts) :
    nearestPoint (mkPLY []) t opts = none ∧
    (mkPLY []).bmin = (0, 0, 0) ∧ (mkPLY []).bmax = (0, 0, 0) :=
  ⟨rfl, rfl, rfl⟩

/-! ## Coordinate model dims (src/index.js lines 73-75) -/

/-- JS `Math.round` for the nonnegative quantities used here:
`round(q) = ⌊q + 1/2⌋` (half rounds up). -/
def jsRound (q : ℚ) : ℤ := ⌊q + 1 / 2⌋

/-- The raster dimensions derived in `run`:
`width = max(1, round(xIn·dpi))`, `height = max(1, round(yIn·dpi))`,
`depth = max(1, round(zIn·25_400_000 / layerHeightNm))`. -/
def dims (xIn yIn zIn dpi lhNm : ℚ) : ℤ × ℤ × ℤ :=
  (max 1 (jsRound (xIn * dpi)), max 1 (jsRound (yIn * dpi)),
    max 1 (jsRound (zIn * 25400000 / lhNm)))

/-- C9: `dims` computes the documented formulas and is monotone: with
nonnegative physical inputs, increasing any of `x_in, y_in, z_in, dpi` or
decreasing `layer_height_nm` never decreases any of `W, H, D`. -/
theorem c9_dims_monotone (xIn yIn zIn dpi lhNm xIn' yIn' zIn' dpi' lhNm' : ℚ)
    (hx0 : 0 ≤ xIn) (hy0 : 0 ≤ yIn) (hz0 : 0 ≤ zIn) (hd0 : 0 ≤ dpi)
    (hx : xIn ≤ xIn') (hy : yIn ≤ yIn') (hz : zIn ≤ zIn') (hd : dpi ≤ dpi')
    (hl' : 0 < lhNm') (hl : lhNm' ≤ lhNm) :
    dims xIn yIn zIn dpi lhNm =
      (max 1 (jsRound (xIn * dpi)), max 1 (jsRound (yIn * dpi)),
        max 1 (jsRound (zIn * 25400000 / lhNm))) ∧
    (dims xIn yIn zIn dpi lhNm).1 ≤ (dims xIn' yIn' zIn' dpi' lhNm').1 ∧
    (dims xIn yIn zIn dpi lhNm).2.1 ≤ (dims xIn' yIn' zIn' dpi' lhNm').2.1 ∧
    (dims xIn yIn zIn dpi lhNm).2.2 ≤ (dims xIn' yIn' zIn' dpi' lhNm').2.2 := by
  have hround : ∀ a b : ℚ, a ≤ b → jsRound a ≤ jsRound b := by
    intro a b hab
    exact Int.floor_le_floor (by linarith)
  refine ⟨rfl, ?_, ?_, ?_⟩
  · exact max_le_max le_rfl (hround _ _ (by nlinarith))
  · exact max_le_max le_rfl (hround _ _ (by nlinarith))
  · refine max_le_max le_rfl (hround _ _ ?_)
    gcongr
    · nlinarith

/-- Witness for `c9_dims_monotone` at a concrete pair of parameter sets. -/
theorem c9_dims_monotone_witness :
    dims 1 1 1 300 27000 =
      (max 1 (jsRound ((1 : ℚ) * 300)), max 1 (jsRound ((1 : ℚ) * 300)),
        max 1 (jsRound ((1 : ℚ) * 25400000 / 27000))) ∧
    (dims 1 1 1 300 27000).1 ≤ (dims 2 1 1 300 27000).1 ∧
    (dims 1 1 1 300 27000).2.1 ≤ (dims 2 1 1 300 27000).2.1 ∧
    (dims 1 1 1 300 27000).2.2 ≤ (dims 2 1 1 300 27000).2.2 :=
  c9_dims_monotone 1 1 1 300 27000 2 1 1 300 27000 (by norm_num) (by norm_num)
    (by norm_num) (by norm_num) (by norm_num) (by norm_num) (by norm_num)
    (by norm_num) (by norm_num) (by norm_num)

/-! ## Slice image (src/classes/png.js)

Pixels are stored as 32-bit little-endian RGBA words
`r + g·2^8 + b·2^16 + a·2^24`, the view the source's flood fill uses; the
byte-level accessors of the source read and write exactly the four bytes of
one word. -/

/-- A W×H RGBA raster.  Well-formedness (`pixels.length = width·height`) is
carried as a hypothesis where needed. -/
structure Img where
  width : ℕ
  height : ℕ
  pixels : List ℕ
deriving DecidableEq, Repr

/-- Compose an RGBA word; each channel is truncated to a byte as the
`Uint8Array` stores (and `|0` coerces) do. -/
def wordOf (r g b a : ℕ) : ℕ :=
  r % 256 + (g % 256) * 2 ^ 8 + (b % 256) * 2 ^ 16 + (a % 256) * 2 ^ 24

/-- Alpha byte of a pixel word. -/
def alphaOf (w : ℕ) : ℕ := w / 2 ^ 24 % 256

/-- Fresh image, zero-initialised (transparent), as the constructor does. -/
def mkImg (w h : ℕ) : Img := ⟨w, h, List.replicate (w * h) 0⟩

/-- The `clear()` primitive: all pixels to 0. -/
def clearImg (img : Img) : Img :=
  ⟨img.width, img.height, List.replicate (img.width * img.height) 0⟩

/-- The `setPixel(x,y,r,g,b,a)` primitive (word-level write). -/
def setPixel (img : Img) (x y r g b a : ℕ) : Img :=
  ⟨img.width, img.height, img.pixels.set (y * img.width + x) (wordOf r g b a)⟩

/-- Pixel word at `(x,y)`. -/
def getPx (img : Img) (x y : ℕ) : ℕ := img.pixels.getD (y * img.width + x) 0

/-! ### Flood fill (src/classes/png.js, `floodFillFrom`) -/

/-- Westward expansion of a scanline span: starting at index `i` (column
`xL`), fill while the word equals `target`; returns the new buffer, count,
and the span's first (westmost) filled index `start`. -/
def ffWest (target fill : ℕ) : ℕ → List ℕ → ℕ → ℕ → List ℕ × ℕ × ℕ
  | 0, cur, i, cnt =>
      if cur.getD i 0 = target then (cur.set i fill, cnt + 1, i)
      else (cur, cnt, i + 1)
  | xL + 1, cur, i, cnt =>
      if cur.getD i 0 = target then
        ffWest target fill xL (cur.set i fill) (i - 1) (cnt + 1)
      else (cur, cnt, i + 1)

/-- Eastward expansion: starting at index `right`, with `fuel` columns left
in the row, fill while the word equals `target`; returns the new buffer,
count, and the first index NOT filled (`end = right - 1` in the source). -/
def ffEast (target fill : ℕ) : ℕ → List ℕ → ℕ → ℕ → List ℕ × ℕ × ℕ
  | 0, cur, right, cnt => (cur, cnt, right)
  | fuel + 1, cur, right, cnt =>
      if cur.getD right 0 = target then
        ffEast target fill fuel (cur.set right fill) (right + 1) (cnt + 1)
      else (cur, cnt, right)

/-- Candidate seeds in the row above the span `[start..endI]` (indices
`xx - width`), kept when they currently equal `target`. -/
def seedsAbove (target width : ℕ) (cur : List ℕ) (start endI : ℕ) : List ℕ :=
  ((List.range (endI + 1 - start)).map (fun k => start + k)).filterMap
    (fun xx =>
      let j := xx - width
      if cur.getD j 0 = target then some j else none)

/-- Candidate seeds in the row below the span (indices `xx + width`). -/
def seedsBelow (target width : ℕ) (cur : List ℕ) (start endI : ℕ) : List ℕ :=
  ((List.range (endI + 1 - start)).map (fun k => start + k)).filterMap
    (fun xx =>
      let j := xx + width
      if cur.getD j 0 = target then some j else none)

/-- The `while (stack.length)` worklist of `floodFillFrom`.  Each iteration
pops one seed; popping a live seed fills a span of `s ≥ 1` pixels and
pushes at most `2s` new seeds, so `stackLen + 2·(number of target pixels)`
strictly decreases each iteration and fuel `2·W·H + 2` always suffices. -/
def ffLoop (target fill width height : ℕ) :
    ℕ → List ℕ → List ℕ → ℕ → ℕ × List ℕ
  | 0, _, cur, cnt => (cnt, cur)
  | _ + 1, [], cur, cnt => (cnt, cur)
  | fuel + 1, i :: rest, cur, cnt =>
      if cur.getD i 0 ≠ target then ffLoop target fill width height fuel rest cur cnt
      else
        let xL := i % width
        let yL := i / width
        let w1 := ffWest target fill xL cur i cnt
        let e1 := ffEast target fill (width - (xL + 1)) w1.1 (i + 1) w1.2.1
        let start := w1.2.2
        let endI := e1.2.2 - 1
        let above := if 0 < yL then seedsAbove target width e1.1 start endI else []
        let below :=
          if yL < height - 1 then seedsBelow target width e1.1 start endI else []
        ffLoop target fill width height fuel
          (below.reverse ++ (above.reverse ++ rest)) e1.1 e1.2.1

/-- `floodFillFrom(x, y, r, g, b, a)`: scanline flood fill replacing the
seed's 32-bit word (the target) by the fill word over the 4-connected
region; returns the number of pixels changed and the new image. -/
def floodFillFrom (img : Img) (x y : ℤ) (r g b a : ℕ) : ℕ × Img :=
  if x < 0 ∨ y < 0 ∨ (img.width : ℤ) ≤ x ∨ (img.height : ℤ) ≤ y then (0, img)
  else
    let i0 := y.toNat * img.width + x.toNat
    let target := img.pixels.getD i0 0
    let fill := wordOf r g b a
    if target = fill then (0, img)
    else
      let res := ffLoop target fill img.width img.height
        (2 * img.width * img.height + 2) [i0] img.pixels 0
      (res.1, ⟨img.width, img.height, res.2⟩)

/-! ## Slice rasterizer (src/index.js, per-layer body of `run`) -/

/-- Red channel as `setPixel` receives it (`p.r | 0`; absent color gives 0). -/
def colorR (p : Point3D) : ℕ := match p.color with | some c => c.r | none => 0

/-- Green channel as `setPixel` receives it. -/
def colorG (p : Point3D) : ℕ := match p.color with | some c => c.g | none => 0

/-- Blue channel as `setPixel` receives it. -/
def colorB (p : Point3D) : ℕ := match p.color with | some c => c.b | none => 0

/-- Per-pixel body of the sampling loop: nearest query with the per-axis
options `src/index.js` passes, skip when no hit or when `d > VOXEL_RADIUS`
(equivalently on squares, `d² > R²`, for the nonnegative radii the driver
uses), otherwise paint the sample color with alpha 255. -/
def rasterPix (ply : PLYStore) (R : ℚ) (zWorld x y : ℚ) (column row : ℕ)
    (img : Img) : Img :=
  match nearestPoint ply (x, y, zWorld)
      { maxDistanceX := some (R * 4), maxDistanceY := some (R * 4),
        maxDistanceZ := some (R * (1 / 10)) } with
  | none => img
  | some pd =>
      if pd.2 > R * R then img
      else setPixel img column row (colorR pd.1) (colorG pd.1) (colorB pd.1) 255

/-- One emitted slice of the stack driver: a fresh (cleared) image is
flood-filled from the center with `(247,247,247,128)`, then every
`(column,row)` is sampled with half-voxel centering
`world = min + ((idx + 0.5)/size)·span`. -/
def rasterizeSlice (ply : PLYStore) (width height depth : ℕ)
    (minx miny minz xSize ySize zSize : ℚ) (R : ℚ) (z : ℕ) : Img :=
  let zWorld := minz + (((z : ℚ) + 1 / 2) / (depth : ℚ)) * zSize
  let img0 := mkImg width height
  let img1 := (floodFillFrom img0 ((width / 2 : ℕ) : ℤ) ((height / 2 : ℕ) : ℤ)
    247 247 247 128).2
  (List.range width).foldl
    (fun imgC (column : ℕ) =>
      let xq : ℚ := minx + (((column : ℚ) + 1 / 2) / (width : ℚ)) * xSize
      (List.range height).foldl
        (fun imgR (row : ℕ) =>
          let yq : ℚ := miny + (((row : ℚ) + 1 / 2) / (height : ℚ)) * ySize
          rasterPix ply R zWorld xq yq column row imgR)
        imgC)
    img1

/-! ## Chamfer operator (the chamfer source file, `src/unnamed/part_002`)

File I/O is abstracted to the decoded slice stack: a `List Img` in the
natural-sort order of the input file names.  The `Float32Array` distance
tables hold exactly the formulas below; the embedding keeps them as exact
rationals. -/

/-- X/Y resolution constant of the chamferer. -/
def DPI_XY : ℚ := 300

/-- Per-slice thickness constant (nanometres). -/
def LAYER_HEIGHT_NM_Q : ℚ := 27000

/-- Nanometres per inch (exact). -/
def NM_PER_INCH_Q : ℚ := 25400000

/-- Layers per inch, `NM_PER_INCH / LAYER_HEIGHT_NM`. -/
def layersPerIn : ℚ := NM_PER_INCH_Q / LAYER_HEIGHT_NM_Q

/-- Material bounding box as `computeGlobalBBox` returns it. -/
structure BBox where
  x0 : ℕ
  y0 : ℕ
  x1 : ℕ
  y1 : ℕ
  z0 : ℕ
  z1 : ℕ
deriving DecidableEq, Repr

/-- Running min over x/y, `Infinity` start modelled as `none`
(`if (x < x0) x0 = x`). -/
def updMin (o : Option ℕ) (v : ℕ) : Option ℕ :=
  match o with
  | none => some v
  | some u => if v < u then some v else o

/-- Running max over x/y, `-1` start (`if (x > x1) x1 = x`). -/
def updMax (m : ℤ) (v : ℕ) : ℤ := if (v : ℤ) > m then (v : ℤ) else m

/-- Accumulator of the Pass-1 scan: x/y bounds over all slices. -/
structure GBB where
  gx0 : Option ℕ
  gx1 : ℤ
  gy0 : Option ℕ
  gy1 : ℤ
deriving DecidableEq, Repr

/-- Pass-1 per-pixel update: pixels with `alpha > 0` extend the bounds. -/
def scanPix (img : Img) (g : GBB) (x y : ℕ) : GBB :=
  if 0 < alphaOf (getPx img x y) then
    ⟨updMin g.gx0 x, updMax g.gx1 x, updMin g.gy0 y, updMax g.gy1 y⟩
  else g

/-- Pass-1 scan of one slice (rows outer, columns inner, as the source). -/
def scanImg (img : Img) (g : GBB) : GBB :=
  (List.range img.height).foldl
    (fun gy (y : ℕ) =>
      (List.range img.width).foldl (fun gx (x : ℕ) => scanPix img gx x y) gy)
    g

/-- Whether a slice contains any pixel with `alpha > 0` (the loop's `any`). -/
def sliceHasMaterial (img : Img) : Bool :=
  (List.range img.height).any
    (fun y => (List.range img.width).any (fun x => 0 < alphaOf (getPx img x y)))

/-- Pass 1, `computeGlobalBBox`: x/y bounds are min/max over material
pixels of all slices; `z0` is initialised to 0 and never updated, `z1` is
initialised to `files.length - 1` and only ever maxed with smaller slice
indices (`z1 = Math.max(z1, zi)`), so both always span the full stack.
Mismatched slice dimensions raise; no material at all yields `none`. -/
def computeGlobalBBox (stack : List Img) : Except String (Option BBox) :=
  match stack with
  | [] => Except.ok none
  | first :: _ =>
      if stack.all (fun s => s.width == first.width && s.height == first.height) then
        let g := stack.foldl (fun acc img => scanImg img acc) ⟨none, -1, none, -1⟩
        let z1 := stack.enum.foldl
          (fun acc p => if sliceHasMaterial p.2 then max acc p.1 else acc)
          (stack.length - 1)
        match g.gx0, g.gy0 with
        | some gx0, some gy0 =>
            if (gx0 : ℤ) ≤ g.gx1 ∧ (gy0 : ℤ) ≤ g.gy1 then
              Except.ok (some ⟨gx0, gy0, g.gx1.toNat, g.gy1.toNat, 0, z1⟩)
            else Except.ok none
        | _, _ => Except.ok none
      else Except.error "Slice dimension mismatch"

/-- Distance (inches) from column `x` to the box's left face
(`dxL[x] = (x - x0) / DPI_XY`). -/
def dxL (b : BBox) (x : ℕ) : ℚ := ((x : ℚ) - b.x0) / DPI_XY

/-- Distance to the right face (`dxR[x] = (x1 - x) / DPI_XY`). -/
def dxR (b : BBox) (x : ℕ) : ℚ := ((b.x1 : ℚ) - x) / DPI_XY

/-- Distance to the top face (`dyT[y] = (y - y0) / DPI_XY`). -/
def dyT (b : BBox) (y : ℕ) : ℚ := ((y : ℚ) - b.y0) / DPI_XY

/-- Distance to the bottom face (`dyB[y] = (y1 - y) / DPI_XY`). -/
def dyB (b : BBox) (y : ℕ) : ℚ := ((b.y1 : ℚ) - y) / DPI_XY

/-- Distance to the bottom layer (`dzB[z] = (z - z0) / layersPerIn`). -/
def dzB (b : BBox) (z : ℕ) : ℚ := ((z : ℚ) - b.z0) / layersPerIn

/-- Distance to the top layer (`dzT[z] = (z1 - z) / layersPerIn`). -/
def dzT (b : BBox) (z : ℕ) : ℚ := ((b.z1 : ℚ) - z) / layersPerIn

/-- The chamfer predicate: twelve edge pair-sums and eight corner
triple-sums, each compared strictly against the radius. -/
def shouldChamfer (dxl dxr dyt dyb dzb dzt r : ℚ) : Bool :=
  if dxl + dyt < r then true
  else if dxr + dyt < r then true
  else if dxl + dyb < r then true
  else if dxr + dyb < r then true
  else if dzt + dxl < r then true
  else if dzt + dxr < r then true
  else if dzt + dyt < r then true
  else if dzt + dyb < r then true
  else if dzb + dxl < r then true
  else if dzb + dxr < r then true
  else if dzb + dyt < r then true
  else if dzb + dyb < r then true
  else if dzt + dxl + dyt < r then true
  else if dzt + dxr + dyt < r then true
  else if dzt + dxl + dyb < r then true
  else if dzt + dxr + dyb < r then true
  else if dzb + dxl + dyt < r then true
  else if dzb + dxr + dyt < r then true
  else if dzb + dxl + dyb < r then true
  else if dzb + dxr + dyb < r then true
  else false

/-- The chamfer predicate evaluated at a voxel of the box. -/
def chamferPredAt (b : BBox) (x y z : ℕ) (r : ℚ) : Bool :=
  shouldChamfer (dxL b x) (dxR b x) (dyT b y) (dyB b y) (dzB b z) (dzT b z) r

/-- JS `Math.sign`. -/
def qsign (q : ℚ) : ℤ := if 0 < q then 1 else if q < 0 then -1 else 0

/-- Debug helper `pickMaterialNeighbor`: first cardinal neighbour
(preferring the direction of the box center, horizontal first) that is
in-image and not chamfered. -/
def pickMaterialNeighbor (x y : ℕ) (zB zT : ℚ) (b : BBox) (r : ℚ)
    (width height : ℕ) : Option (ℕ × ℕ) :=
  let cx : ℚ := ((b.x0 : ℚ) + b.x1) / 2
  let cy : ℚ := ((b.y0 : ℚ) + b.y1) / 2
  let dirs : List (ℤ × ℤ) :=
    [(qsign (cx - x), 0), (0, qsign (cy - y)),
     (-qsign (cx - x), 0), (0, -qsign (cy - y))]
  dirs.findSome? (fun d =>
    let nx := (x : ℤ) + d.1
    let ny := (y : ℤ) + d.2
    if nx < 0 ∨ (width : ℤ) ≤ nx ∨ ny < 0 ∨ (height : ℤ) ≤ ny then none
    else if shouldChamfer (dxL b nx.toNat) (dxR b nx.toNat) (dyT b ny.toNat)
        (dyB b ny.toNat) zB zT r then none
    else some (nx.toNat, ny.toNat))

/-- Clear the alpha byte of a pixel word (`out[i + 3] = 0`). -/
def clearAlpha (pix : List ℕ) (i : ℕ) : List ℕ := pix.set i (pix.getD i 0 % 2 ^ 24)

/-- The per-voxel body of `chamferSlice`'s double loop: skip VOID pixels,
evaluate the predicate, optionally draw the debug overlay on a material
neighbour, then carve (alpha to 0) and record the mask bit. -/
def chamferPix (b : BBox) (r : ℚ) (zB zT : ℚ) (debug : Bool)
    (prev : Option (List Bool)) (width height : ℕ)
    (st : List ℕ × List Bool) (x y : ℕ) : List ℕ × List Bool :=
  let out := st.1
  let mask := st.2
  let i := y * width + x
  if alphaOf (out.getD i 0) = 0 then st
  else if ¬ shouldChamfer (dxL b x) (dxR b x) (dyT b y) (dyB b y) zB zT r then st
  else
    let mask' := mask.set i true
    let out1 :=
      if debug then
        let leftCh := if 0 < x then
          shouldChamfer (dxL b (x - 1)) (dxR b (x - 1)) (dyT b y) (dyB b y) zB zT r
          else true
        let rightCh := if x + 1 < width then
          shouldChamfer (dxL b (x + 1)) (dxR b (x + 1)) (dyT b y) (dyB b y) zB zT r
          else true
        let upCh := if 0 < y then
          shouldChamfer (dxL b x) (dxR b x) (dyT b (y - 1)) (dyB b (y - 1)) zB zT r
          else true
        let downCh := if y + 1 < height then
          shouldChamfer (dxL b x) (dxR b x) (dyT b (y + 1)) (dyB b (y + 1)) zB zT r
          else true
        let neighborDiff := !(leftCh && rightCh && upCh && downCh)
        let wasCh := match prev with | some m => m.getD i false | none => false
        let zTransition := !wasCh
        if neighborDiff || zTransition then
          match pickMaterialNeighbor x y zB zT b r width height with
          | some nb => out.set (nb.2 * width + nb.1) (wordOf 0 0 0 255)
          | none => out
        else out
      else out
    (clearAlpha out1 i, mask')

/-- Inclusive range `[lo..hi]` of naturals. -/
def rangeIncl (lo hi : ℕ) : List ℕ := (List.range (hi + 1 - lo)).map (fun k => lo + k)

/-- Pass 2 on one slice: iterate the box voxels of layer `zIndex`, carving
and recording the chamfer mask (for the next layer's vertical-transition
test). -/
def chamferSlice (img : Img) (zIndex : ℕ) (b : BBox) (r : ℚ) (debug : Bool)
    (prev : Option (List Bool)) : Img × List Bool :=
  let zB := dzB b zIndex
  let zT := dzT b zIndex
  let init : List ℕ × List Bool :=
    (img.pixels, List.replicate (img.width * img.height) false)
  let res := (rangeIncl b.y0 b.y1).foldl
    (fun st (y : ℕ) =>
      (rangeIncl b.x0 b.x1).foldl
        (fun st2 (x : ℕ) => chamferPix b r zB zT debug prev img.width img.height st2 x y)
        st)
    init
  (⟨img.width, img.height, res.1⟩, res.2)

/-- `processFolder`: validate the radius, compute the global box (copying
the stack unchanged when there is no material), then chamfer slice by
slice, threading the previous layer's mask. -/
def processFolder (stack : List Img) (r : ℚ) (debug : Bool) :
    Except String (List Img) :=
  if r < 0 then Except.error "radiusInches must be a nonnegative number."
  else if stack.isEmpty then Except.error "No PNG slices found."
  else
    match computeGlobalBBox stack with
    | Except.error e => Except.error e
    | Except.ok none => Except.ok stack
    | Except.ok (some b) =>
        let res := stack.enum.foldl
          (fun (acc : List Img × Option (List Bool)) p =>
            let out := chamferSlice p.2 p.1 b r debug acc.2
            (acc.1 ++ [out.1], some out.2))
          ([], none)
        Except.ok res.1

/-! ## PNG writer (src/classes/png.js, `flush`)

The deterministic uncompressed-DEFLATE PNG encoder, embedded at the byte
level (bytes as `ℕ < 256`, 32-bit accumulators as `ℕ` with explicit
truncation where the source masks). -/

/-- One bit-step of the CRC table construction:
`c & 1 ? 0xedb88320 ^ (c >>> 1) : c >>> 1`. -/
def crcBit (c : ℕ) : ℕ := if c % 2 = 1 then 0xedb88320 ^^^ (c / 2) else c / 2

/-- Eight bit-steps. -/
def crcBits : ℕ → ℕ → ℕ
  | 0, c => c
  | k + 1, c => crcBits k (crcBit c)

/-- CRC table entry for byte `n`. -/
def crcTableAt (n : ℕ) : ℕ := crcBits 8 n

/-- One byte of the CRC-32 fold:
`c = table[(c ^ byte) & 0xff] ^ (c >>> 8)`. -/
def crc32Step (c byte : ℕ) : ℕ := crcTableAt ((c ^^^ byte) % 256) ^^^ (c / 256)

/-- CRC-32 over a byte list. -/
def crc32 (bytes : List ℕ) : ℕ := (bytes.foldl crc32Step 0xffffffff) ^^^ 0xffffffff

/-- Adler-32 over a byte list (`a`,`d` folded mod 65521, `(d<<16)|a`). -/
def adler32 (bytes : List ℕ) : ℕ :=
  let st := bytes.foldl
    (fun (ad : ℕ × ℕ) b =>
      let a1 := ad.1 + b
      let a2 := if 65521 ≤ a1 then a1 - 65521 else a1
      let d1 := ad.2 + a2
      let d2 := if 65521 ≤ d1 then d1 - 65521 else d1
      (a2, d2))
    (1, 0)
  st.2 * 65536 + st.1

/-- Big-endian 4-byte encoding of a 32-bit value. -/
def u32be (n : ℕ) : List ℕ :=
  [n / 2 ^ 24 % 256, n / 2 ^ 16 % 256, n / 2 ^ 8 % 256, n % 256]

/-- Little-endian 2-byte encoding of a 16-bit value. -/
def u16le (n : ℕ) : List ℕ := [n % 256, n / 256 % 256]

/-- A PNG chunk: length, type, data, CRC-32 of type+data. -/
def writeChunk (typeBytes data : List ℕ) : List ℕ :=
  u32be data.length ++ typeBytes ++ data ++ u32be (crc32 (typeBytes ++ data))

/-- Stored (uncompressed) DEFLATE blocks of at most 65535 bytes:
`BFINAL`, `LEN` (LE), `NLEN = ~LEN & 0xffff`, then the raw bytes. -/
def deflateStored : ℕ → List ℕ → List ℕ
  | 0, _ => []
  | fuel + 1, raw =>
      if raw.length = 0 then []
      else
        let blockSize := min raw.length 65535
        let bfinal := if raw.length ≤ blockSize then 1 else 0
        [bfinal] ++ u16le blockSize ++ u16le (65535 - blockSize) ++
          raw.take blockSize ++ deflateStored fuel (raw.drop blockSize)

/-- The zlib stream: CMF/FLG header `0x78 0x01`, stored blocks, Adler-32
of the raw data. -/
def zlibNoCompression (raw : List ℕ) : List ℕ :=
  [0x78, 0x01] ++ deflateStored (raw.length + 1) raw ++ u32be (adler32 raw)

/-- Four little-endian RGBA bytes of a pixel word. -/
def pixelBytes (w : ℕ) : List ℕ :=
  [w % 256, w / 2 ^ 8 % 256, w / 2 ^ 16 % 256, w / 2 ^ 24 % 256]

/-- Filter-type-0 scanlines: each row is a 0 byte followed by the row's
RGBA bytes. -/
def scanlines (img : Img) : List ℕ :=
  (List.range img.height).flatMap
    (fun y => 0 :: (List.range img.width).flatMap (fun x => pixelBytes (getPx img x y)))

/-- ASCII bytes of the chunk type `IHDR`. -/
def ihdrType : List ℕ := [73, 72, 68, 82]

/-- ASCII bytes of the chunk type `IDAT`. -/
def idatType : List ℕ := [73, 68, 65, 84]

/-- ASCII bytes of the chunk type `IEND`. -/
def iendType : List ℕ := [73, 69, 78, 68]

/-- The full `flush` output: PNG signature, IHDR (8-bit RGBA, deflate,
filter 0, no interlace), one IDAT holding the zlib stream, IEND. -/
def pngEncode (img : Img) : List ℕ :=
  [0x89, 0x50, 0x4e, 0x47, 0x0d, 0x0a, 0x1a, 0x0a] ++
    writeChunk ihdrType (u32be img.width ++ u32be img.height ++ [8, 6, 0, 0, 0]) ++
    writeChunk idatType (zlibNoCompression (scanlines img)) ++
    writeChunk iendType []

/-! ## Claims C2, C5 (counterexample), C7 (counterexample) -/

/-- C2: Pass 1's Z bounds are never tightened.  On a two-slice 1×1 stack
whose first slice is fully transparent and whose second holds material,
`computeGlobalBBox` returns `Z0 = 0, Z1 = 1`, although the only slice
containing a material pixel is slice 1 (a tight bound would be
`Z0 = Z1 = 1`): `z0` is initialised to 0 and never updated, and `z1` is
initialised to `files.length - 1`, which `Math.max` can never raise. -/
theorem c2_z_bounds_not_tight :
    computeGlobalBBox [⟨1, 1, [0]⟩, ⟨1, 1, [wordOf 255 255 255 255]⟩] =
      Except.ok (some ⟨0, 0, 0, 0, 0, 1⟩) ∧
    sliceHasMaterial ⟨1, 1, [0]⟩ = false ∧
    sliceHasMaterial ⟨1, 1, [wordOf 255 255 255 255]⟩ = true :=
  ⟨rfl, rfl, rfl⟩

/-- Squared half-diagonal of the material box, in inches (the spec's
half-diagonal is its square root; for positive radii,
`r > halfDiag ↔ r² > halfDiagSq`). -/
def halfDiagSq (b : BBox) : ℚ :=
  (((b.x1 : ℚ) - b.x0) / DPI_XY) ^ 2 / 4 + (((b.y1 : ℚ) - b.y0) / DPI_XY) ^ 2 / 4 +
    (((b.z1 : ℚ) - b.z0) / layersPerIn) ^ 2 / 4

/-- C5 counterexample: on an empty cloud (so no point lies within any
radius of any pixel's world position), the emitted 1×1 slice's pixel has
alpha 128 — the interior flood fill `(247,247,247,128)` runs before
sampling — not alpha 0 as the claim requires. -/
theorem c5_counterexample :
    (mkPLY []).points = [] ∧
    alphaOf (getPx (rasterizeSlice (mkPLY []) 1 1 1 0 0 0 0 0 0 1 0) 0 0) = 128 :=
  ⟨rfl, rfl⟩

/-- C7 counterexample: a near-cubical material box (300×300 pixels,
942 layers ≈ 1 in × 1 in × 1.0003 in) has squared half-diagonal below
`(9/10)²`, yet its center voxel `(150,150,470)` is NOT chamfered at radius
`9/10`: every edge pair-sum there is ≥ 0.9996.  So a radius strictly
exceeding the half-diagonal does not carve every voxel. -/
theorem c7_counterexample :
    (0 : ℚ) < 9 / 10 ∧
    halfDiagSq ⟨0, 0, 300, 300, 0, 941⟩ < (9 / 10 : ℚ) ^ 2 ∧
    ((150 : ℕ) ≤ 300 ∧ (470 : ℕ) ≤ 941) ∧
    chamferPredAt ⟨0, 0, 300, 300, 0, 941⟩ 150 150 470 (9 / 10) = false := by
  refine ⟨by norm_num, ?_, by decide, ?_⟩
  · norm_num [halfDiagSq, DPI_XY, layersPerIn, NM_PER_INCH_Q, LAYER_HEIGHT_NM_Q]
  · norm_num [chamferPredAt, shouldChamfer, dxL, dxR, dyT, dyB, dzB, dzT,
      DPI_XY, layersPerIn, NM_PER_INCH_Q, LAYER_HEIGHT_NM_Q]

/-! ## C7 amended: exact radius thresholds of the chamfer predicate -/

/-- X extent of the material box in inches. -/
def extX (b : BBox) : ℚ := ((b.x1 : ℚ) - b.x0) / DPI_XY

/-- Y extent of the material box in inches. -/
def extY (b : BBox) : ℚ := ((b.y1 : ℚ) - b.y0) / DPI_XY

/-- Z extent of the material box in inches. -/
def extZ (b : BBox) : ℚ := ((b.z1 : ℚ) - b.z0) / layersPerIn

theorem ite_true_or (p : Prop) [Decidable p] (b : Bool) :
    (if p then true else b) = (decide p || b) := by
  by_cases h : p <;> simp [h]

theorem shouldChamfer_eq_true_iff (dxl dxr dyt dyb dzb dzt r : ℚ) :
    shouldChamfer dxl dxr dyt dyb dzb dzt r = true ↔
      (dxl + dyt < r ∨ dxr + dyt < r ∨ dxl + dyb < r ∨ dxr + dyb < r ∨
       dzt + dxl < r ∨ dzt + dxr < r ∨ dzt + dyt < r ∨ dzt + dyb < r ∨
       dzb + dxl < r ∨ dzb + dxr < r ∨ dzb + dyt < r ∨ dzb + dyb < r ∨
       dzt + dxl + dyt < r ∨ dzt + dxr + dyt < r ∨ dzt + dxl + dyb < r ∨
       dzt + dxr + dyb < r ∨ dzb + dxl + dyt < r ∨ dzb + dxr + dyt < r ∨
       dzb + dxl + dyb < r ∨ dzb + dxr + dyb < r) := by
  unfold shouldChamfer
  simp only [ite_true_or, Bool.or_eq_true, decide_eq_true_eq, Bool.or_false]

theorem dx_sum (b : BBox) (x : ℕ) : dxL b x + dxR b x = extX b := by
  unfold dxL dxR extX; ring

theorem dy_sum (b : BBox) (y : ℕ) : dyT b y + dyB b y = extY b := by
  unfold dyT dyB extY; ring

theorem dz_sum (b : BBox) (z : ℕ) : dzB b z + dzT b z = extZ b := by
  unfold dzB dzT extZ; ring

/-- C7 (amended): inside the material box, radius 0 never carves any
voxel; and a radius `r` with `2r` strictly exceeding the sum of some two of
the box's three extents (in particular, of the two smallest — the spec's
half-diagonal threshold is too small) carves every voxel. -/
theorem c7_chamfer_radius_extremes (b : BBox) (x y z : ℕ) (r : ℚ)
    (hx0 : b.x0 ≤ x) (hx1 : x ≤ b.x1) (hy0 : b.y0 ≤ y) (hy1 : y ≤ b.y1)
    (hz0 : b.z0 ≤ z) (hz1 : z ≤ b.z1) :
    chamferPredAt b x y z 0 = false ∧
    (extX b + extY b < 2 * r ∨ extX b + extZ b < 2 * r ∨ extY b + extZ b < 2 * r →
      chamferPredAt b x y z r = true) := by
  have lpi_pos : (0 : ℚ) < layersPerIn := by
    norm_num [layersPerIn, NM_PER_INCH_Q, LAYER_HEIGHT_NM_Q]
  have hdxl : 0 ≤ dxL b x := by
    unfold dxL DPI_XY
    apply div_nonneg _ (by norm_num)
    have : (b.x0 : ℚ) ≤ (x : ℚ) := by exact_mod_cast hx0
    linarith
  have hdxr : 0 ≤ dxR b x := by
    unfold dxR DPI_XY
    apply div_nonneg _ (by norm_num)
    have : (x : ℚ) ≤ (b.x1 : ℚ) := by exact_mod_cast hx1
    linarith
  have hdyt : 0 ≤ dyT b y := by
    unfold dyT DPI_XY
    apply div_nonneg _ (by norm_num)
    have : (b.y0 : ℚ) ≤ (y : ℚ) := by exact_mod_cast hy0
    linarith
  have hdyb : 0 ≤ dyB b y := by
    unfold dyB DPI_XY
    apply div_nonneg _ (by norm_num)
    have : (y : ℚ) ≤ (b.y1 : ℚ) := by exact_mod_cast hy1
    linarith
  have hdzb : 0 ≤ dzB b z := by
    unfold dzB
    apply div_nonneg _ (le_of_lt lpi_pos)
    have : (b.z0 : ℚ) ≤ (z : ℚ) := by exact_mod_cast hz0
    linarith
  have hdzt : 0 ≤ dzT b z := by
    unfold dzT
    apply div_nonneg _ (le_of_lt lpi_pos)
    have : (z : ℚ) ≤ (b.z1 : ℚ) := by exact_mod_cast hz1
    linarith
  constructor
  · rw [Bool.eq_false_iff]
    intro h
    rw [chamferPredAt, shouldChamfer_eq_true_iff] at h
    rcases h with h|h|h|h|h|h|h|h|h|h|h|h|h|h|h|h|h|h|h|h <;> linarith
  · intro hdisj
    rw [chamferPredAt, shouldChamfer_eq_true_iff]
    by_contra hfalse
    push_neg at hfalse
    obtain ⟨h1, h2, h3, h4, h5, h6, h7, h8, h9, h10, h11, h12,
      h13, h14, h15, h16, h17, h18, h19, h20⟩ := hfalse
    have ex := dx_sum b x
    have ey := dy_sum b y
    have ez := dz_sum b z
    rcases hdisj with h|h|h
    · linarith
    · linarith
    · linarith

/-- Witness for `c7_chamfer_radius_extremes` at a concrete box and voxel. -/
theorem c7_chamfer_radius_extremes_witness :
    chamferPredAt ⟨0, 0, 300, 300, 0, 941⟩ 0 0 0 0 = false ∧
    (extX ⟨0, 0, 300, 300, 0, 941⟩ + extY ⟨0, 0, 300, 300, 0, 941⟩ < 2 * 2 ∨
     extX ⟨0, 0, 300, 300, 0, 941⟩ + extZ ⟨0, 0, 300, 300, 0, 941⟩ < 2 * 2 ∨
     extY ⟨0, 0, 300, 300, 0, 941⟩ + extZ ⟨0, 0, 300, 300, 0, 941⟩ < 2 * 2 →
      chamferPredAt ⟨0, 0, 300, 300, 0, 941⟩ 0 0 0 2 = true) :=
  c7_chamfer_radius_extremes ⟨0, 0, 300, 300, 0, 941⟩ 0 0 0 2
    (by decide) (by decide) (by decide) (by decide) (by decide) (by decide)

/-! ## C4: radius-0 chamfer is the identity -/

theorem shouldChamfer_zero (dxl dxr dyt dyb dzb dzt : ℚ)
    (h1 : 0 ≤ dxl) (h2 : 0 ≤ dxr) (h3 : 0 ≤ dyt) (h4 : 0 ≤ dyb)
    (h5 : 0 ≤ dzb) (h6 : 0 ≤ dzt) :
    shouldChamfer dxl dxr dyt dyb dzb dzt 0 = false := by
  rw [Bool.eq_false_iff]
  intro h
  rw [shouldChamfer_eq_true_iff] at h
  rcases h with h|h|h|h|h|h|h|h|h|h|h|h|h|h|h|h|h|h|h|h <;> linarith

theorem dxL_nonneg (b : BBox) (x : ℕ) (h : b.x0 ≤ x) : 0 ≤ dxL b x := by
  unfold dxL DPI_XY
  apply div_nonneg _ (by norm_num)
  have : (b.x0 : ℚ) ≤ (x : ℚ) := by exact_mod_cast h
  linarith

theorem dxR_nonneg (b : BBox) (x : ℕ) (h : x ≤ b.x1) : 0 ≤ dxR b x := by
  unfold dxR DPI_XY
  apply div_nonneg _ (by norm_num)
  have : (x : ℚ) ≤ (b.x1 : ℚ) := by exact_mod_cast h
  linarith

theorem dyT_nonneg (b : BBox) (y : ℕ) (h : b.y0 ≤ y) : 0 ≤ dyT b y := by
  unfold dyT DPI_XY
  apply div_nonneg _ (by norm_num)
  have : (b.y0 : ℚ) ≤ (y : ℚ) := by exact_mod_cast h
  linarith

theorem dyB_nonneg (b : BBox) (y : ℕ) (h : y ≤ b.y1) : 0 ≤ dyB b y := by
  unfold dyB DPI_XY
  apply div_nonneg _ (by norm_num)
  have : (y : ℚ) ≤ (b.y1 : ℚ) := by exact_mod_cast h
  linarith

theorem lpi_pos : (0 : ℚ) < layersPerIn := by
  norm_num [layersPerIn, NM_PER_INCH_Q, LAYER_HEIGHT_NM_Q]

theorem dzB_nonneg (b : BBox) (z : ℕ) (h : b.z0 ≤ z) : 0 ≤ dzB b z := by
  unfold dzB
  apply div_nonneg _ (le_of_lt lpi_pos)
  have : (b.z0 : ℚ) ≤ (z : ℚ) := by exact_mod_cast h
  linarith

theorem dzT_nonneg (b : BBox) (z : ℕ) (h : z ≤ b.z1) : 0 ≤ dzT b z := by
  unfold dzT
  apply div_nonneg _ (le_of_lt lpi_pos)
  have : (z : ℚ) ≤ (b.z1 : ℚ) := by exact_mod_cast h
  linarith

theorem chamferPix_zero (b : BBox) (z : ℕ) (debug : Bool)
    (prev : Option (List Bool)) (w h : ℕ) (st : List ℕ × List Bool) (x y : ℕ)
    (hx0 : b.x0 ≤ x) (hx1 : x ≤ b.x1) (hy0 : b.y0 ≤ y) (hy1 : y ≤ b.y1)
    (hz0 : b.z0 ≤ z) (hz1 : z ≤ b.z1) :
    chamferPix b 0 (dzB b z) (dzT b z) debug prev w h st x y = st := by
  have hsc : shouldChamfer (dxL b x) (dxR b x) (dyT b y) (dyB b y)
      (dzB b z) (dzT b z) 0 = false :=
    shouldChamfer_zero _ _ _ _ _ _ (dxL_nonneg b x hx0) (dxR_nonneg b x hx1)
      (dyT_nonneg b y hy0) (dyB_nonneg b y hy1) (dzB_nonneg b z hz0)
      (dzT_nonneg b z hz1)
  simp only [chamferPix]
  split
  · rfl
  · split
    · rfl
    · rename_i hcond
      rw [hsc] at hcond
      simp at hcond

theorem foldl_fixed {α β : Type} (f : β → α → β) (l : List α) (s : β)
    (h : ∀ a ∈ l, ∀ st, f st a = st) : l.foldl f s = s := by
  induction l generalizing s with
  | nil => rfl
  | cons a t ih =>
      rw [List.foldl_cons, h a (List.mem_cons_self a t)]
      exact ih s (fun a' ha' st => h a' (List.mem_cons_of_mem _ ha') st)

theorem rangeIncl_mem (lo hi a : ℕ) (h : a ∈ rangeIncl lo hi) : lo ≤ a ∧ a ≤ hi := by
  unfold rangeIncl at h
  obtain ⟨k, hk, rfl⟩ := List.mem_map.mp h
  have hk' := List.mem_range.mp hk
  omega

theorem chamferSlice_zero (img : Img) (z : ℕ) (b : BBox) (debug : Bool)
    (prev : Option (List Bool)) (hz0 : b.z0 ≤ z) (hz1 : z ≤ b.z1) :
    (chamferSlice img z b 0 debug prev).1 = img := by
  unfold chamferSlice
  have hfold : (rangeIncl b.y0 b.y1).foldl
      (fun st (y : ℕ) =>
        (rangeIncl b.x0 b.x1).foldl
          (fun st2 (x : ℕ) =>
            chamferPix b 0 (dzB b z) (dzT b z) debug prev img.width img.height st2 x y)
          st)
      (img.pixels, List.replicate (img.width * img.height) false) =
      (img.pixels, List.replicate (img.width * img.height) false) := by
    apply foldl_fixed
    intro y hy st
    obtain ⟨hy0, hy1⟩ := rangeIncl_mem _ _ _ hy
    apply foldl_fixed
    intro x hx st2
    obtain ⟨hx0, hx1⟩ := rangeIncl_mem _ _ _ hx
    exact chamferPix_zero b z debug prev img.width img.height st2 x y
      hx0 hx1 hy0 hy1 hz0 hz1
  simp only [hfold]

theorem le_foldl_max (l : List (ℕ × Img)) (base : ℕ) :
    base ≤ l.foldl
      (fun acc p => if sliceHasMaterial p.2 then max acc p.1 else acc) base := by
  induction l generalizing base with
  | nil => simp
  | cons p t ih =>
      simp only [List.foldl_cons]
      refine le_trans ?_ (ih _)
      by_cases h : sliceHasMaterial p.2 <;> simp [h, le_max_left]

theorem computeGlobalBBox_z (stack : List Img) (b : BBox)
    (h : computeGlobalBBox stack = Except.ok (some b)) :
    b.z0 = 0 ∧ stack.length - 1 ≤ b.z1 := by
  match stack with
  | [] => simp [computeGlobalBBox] at h
  | first :: rest =>
      simp only [computeGlobalBBox] at h
      split at h
      · split at h
        · split at h
          · injection h with h'
            injection h' with h''
            subst h''
            exact ⟨rfl, le_foldl_max _ _⟩
          · simp at h
        · simp at h
      · simp at h

theorem chamferFold_id (b : BBox) (debug : Bool) (l : List (ℕ × Img)) :
    ∀ (acc : List Img × Option (List Bool)),
      (∀ p ∈ l, b.z0 ≤ p.1 ∧ p.1 ≤ b.z1) →
      (l.foldl
          (fun (acc : List Img × Option (List Bool)) p =>
            ((acc.1 ++ [(chamferSlice p.2 p.1 b 0 debug acc.2).1],
              some (chamferSlice p.2 p.1 b 0 debug acc.2).2)))
          acc).1 = acc.1 ++ l.map (fun p => p.2) := by
  induction l with
  | nil => intro acc _; simp
  | cons p t ih =>
      intro acc h
      have hp := h p (List.mem_cons_self p t)
      have hout : (chamferSlice p.2 p.1 b 0 debug acc.2).1 = p.2 :=
        chamferSlice_zero _ _ _ _ _ hp.1 hp.2
      simp only [List.foldl_cons, hout]
      rw [ih _ (fun q hq => h q (List.mem_cons_of_mem _ hq))]
      simp

theorem computeGlobalBBox_ok (stack : List Img)
    (hdim : ∃ w h, ∀ s ∈ stack, s.width = w ∧ s.height = h) :
    ∃ o, computeGlobalBBox stack = Except.ok o := by
  match stack with
  | [] => exact ⟨none, rfl⟩
  | first :: rest =>
      obtain ⟨w, h, hall⟩ := hdim
      have hfw := hall first (List.mem_cons_self _ _)
      have hcheck : ((first :: rest).all
          (fun s => s.width == first.width && s.height == first.height)) = true := by
        rw [List.all_eq_true]
        intro s hs
        have hs' := hall s hs
        rw [Bool.and_eq_true, beq_iff_eq, beq_iff_eq]
        constructor
        · rw [hs'.1, hfw.1]
        · rw [hs'.2, hfw.2]
      simp only [computeGlobalBBox, hcheck, if_true]
      split
      · split
        · exact ⟨_, rfl⟩
        · exact ⟨_, rfl⟩
      · exact ⟨_, rfl⟩

/-- C4: running the chamfer operator with radius 0 (and debug off) returns
every input slice unchanged, hence — re-encoding each slice with the
deterministic §6 PNG writer embedded from `src/classes/png.js` (the file
write itself goes through the external `sharp` library, modelled from the
spec by this writer) — output files byte-identical to the inputs. -/
theorem c4_chamfer_zero_identity (stack : List Img) (hne : stack ≠ [])
    (hdim : ∃ w h, ∀ s ∈ stack, s.width = w ∧ s.height = h) :
    processFolder stack 0 false = Except.ok stack ∧
    Except.map (fun out => out.map pngEncode) (processFolder stack 0 false) =
      Except.ok (stack.map pngEncode) := by
  have hmain : processFolder stack 0 false = Except.ok stack := by
    have hempty : stack.isEmpty = false := by
      cases stack with
      | nil => exact absurd rfl hne
      | cons a t => rfl
    obtain ⟨o, ho⟩ := computeGlobalBBox_ok stack hdim
    simp only [processFolder, hempty, ho]
    norm_num
    cases o with
    | none => rfl
    | some b =>
        obtain ⟨hz0, hz1⟩ := computeGlobalBBox_z stack b ho
        have hfold := chamferFold_id b false stack.enum ([], none) ?_
        · simp only [List.nil_append] at hfold
          rw [show List.map (fun p => p.2) stack.enum = stack from List.enum_map_snd stack] at hfold
          exact congrArg Except.ok hfold
        · intro p hp
          have hidx : stack[p.1]? = some p.2 := by
            rw [← List.mem_enum_iff_getElem?]
            exact hp
          have hlt : p.1 < stack.length := by
            by_contra hge
            rw [List.getElem?_eq_none (by omega)] at hidx
            cases hidx
          constructor
          · rw [hz0]; exact Nat.zero_le _
          · omega
  refine ⟨hmain, ?_⟩
  rw [hmain]
  rfl

/-- Witness for `c4_chamfer_zero_identity` on a concrete one-slice stack. -/
theorem c4_chamfer_zero_identity_witness :
    processFolder [⟨1, 1, [wordOf 10 20 30 255]⟩] 0 false =
      Except.ok [⟨1, 1, [wordOf 10 20 30 255]⟩] ∧
    Except.map (fun out => out.map pngEncode)
        (processFolder [⟨1, 1, [wordOf 10 20 30 255]⟩] 0 false) =
      Except.ok ([⟨1, 1, [wordOf 10 20 30 255]⟩].map pngEncode) :=
  c4_chamfer_zero_identity [⟨1, 1, [wordOf 10 20 30 255]⟩] (by decide)
    ⟨1, 1, by decide⟩

/-! ## Quickselect and k-d build correctness (towards C8 and C5) -/

/-- Element of the index list at an integer position. -/
def getI (arr : List ℕ) (j : ℤ) : ℕ := arr.getD j.toNat 0

/-- Integer position within the inclusive segment `[lo, hi]`. -/
def inSeg (lo hi j : ℤ) : Prop := lo ≤ j ∧ j ≤ hi

/-- A list transformation confined to segment `[lo, hi]`: lengths agree,
positions outside the segment are untouched, and any property holding of
every segment element still holds of every segment element afterwards
(true of any permutation of the segment). -/
def SegPres (arr arr' : List ℕ) (lo hi : ℤ) : Prop :=
  arr'.length = arr.length ∧
  (∀ j : ℤ, 0 ≤ j → ¬ inSeg lo hi j → getI arr' j = getI arr j) ∧
  ∀ P : ℕ → Prop, (∀ j, inSeg lo hi j → P (getI arr j)) →
    ∀ j, inSeg lo hi j → P (getI arr' j)

theorem segPres_refl (arr : List ℕ) (lo hi : ℤ) : SegPres arr arr lo hi :=
  ⟨rfl, fun _ _ _ => rfl, fun _ h => h⟩

theorem segPres_trans {a b c : List ℕ} {lo hi : ℤ} (h1 : SegPres a b lo hi)
    (h2 : SegPres b c lo hi) : SegPres a c lo hi := by
  refine ⟨h2.1.trans h1.1, fun j hj hout => ?_, fun P hP => ?_⟩
  · rw [h2.2.1 j hj hout, h1.2.1 j hj hout]
  · exact h2.2.2 P (h1.2.2 P hP)

theorem segPres_widen {a b : List ℕ} {lo hi lo' hi' : ℤ} (h : SegPres a b lo' hi')
    (h0 : 0 ≤ lo) (hlo : lo ≤ lo') (hhi : hi' ≤ hi) : SegPres a b lo hi := by
  refine ⟨h.1, fun j hj hout => ?_, fun P hP j hj => ?_⟩
  · exact h.2.1 j hj (fun hin => hout ⟨le_trans hlo hin.1, le_trans hin.2 hhi⟩)
  · by_cases hin : inSeg lo' hi' j
    · exact h.2.2 P (fun j' hj' => hP j' ⟨le_trans hlo hj'.1, le_trans hj'.2 hhi⟩) j hin
    · have hj0 : (0 : ℤ) ≤ j := le_trans h0 hj.1
      rw [h.2.1 j hj0 hin]
      exact hP j hj
  
theorem lswap_length (l : List ℕ) (a b : ℤ) : (lswap l a b).length = l.length := by
  simp [lswap]

theorem getI_lswap_left (l : List ℕ) (a b : ℤ) (ha : a.toNat < l.length)
    (hb : b.toNat < l.length) : getI (lswap l a b) a = getI l b := by
  unfold getI lswap
  by_cases hab : a.toNat = b.toNat
  · rw [hab]
    simp only [List.getD_eq_getElem?_getD]
    rw [List.getElem?_set_self (by simpa using hb)]
    simp
  · simp only [List.getD_eq_getElem?_getD]
    rw [List.getElem?_set_ne (fun h => hab h.symm), List.getElem?_set_self (by simpa using ha)]
    simp

theorem getI_lswap_right (l : List ℕ) (a b : ℤ) (ha : a.toNat < l.length)
    (hb : b.toNat < l.length) : getI (lswap l a b) b = getI l a := by
  unfold getI lswap
  simp only [List.getD_eq_getElem?_getD]
  rw [List.getElem?_set_self (by simpa using hb)]
  simp

theorem getI_lswap_other (l : List ℕ) (a b j : ℤ) (hja : j.toNat ≠ a.toNat)
    (hjb : j.toNat ≠ b.toNat) : getI (lswap l a b) j = getI l j := by
  unfold getI lswap
  simp only [List.getD_eq_getElem?_getD]
  rw [List.getElem?_set_ne (fun h => hjb h.symm), List.getElem?_set_ne (fun h => hja h.symm)]

theorem segPres_lswap (l : List ℕ) (a b lo hi : ℤ) (h0 : 0 ≤ lo)
    (ha : inSeg lo hi a) (hb : inSeg lo hi b)
    (hal : a.toNat < l.length) (hbl : b.toNat < l.length) :
    SegPres l (lswap l a b) lo hi := by
  have ha0 : (0 : ℤ) ≤ a := le_trans h0 ha.1
  have hb0 : (0 : ℤ) ≤ b := le_trans h0 hb.1
  refine ⟨lswap_length l a b, fun j hj hout => ?_, fun P hP j hj => ?_⟩
  · refine getI_lswap_other l a b j (fun h => hout ?_) (fun h => hout ?_)
    · have : j = a := by omega
      rw [this]; exact ha
    · have : j = b := by omega
      rw [this]; exact hb
  · have hj0 : (0 : ℤ) ≤ j := le_trans h0 hj.1
    by_cases hja : j.toNat = a.toNat
    · have : j = a := by omega
      subst this
      rw [getI_lswap_left l j b hal hbl]
      exact hP b hb
    · by_cases hjb : j.toNat = b.toNat
      · have : j = b := by omega
        subst this
        rw [getI_lswap_right l a j hal hbl]
        exact hP a ha
      · rw [getI_lswap_other l a b j hja hjb]
        exact hP j hj

theorem rangeZ_cons (i hi : ℤ) (h : i < hi) : rangeZ i hi = i :: rangeZ (i + 1) hi := by
  unfold rangeZ
  have h1 : (hi - i).toNat = (hi - (i + 1)).toNat + 1 := by omega
  rw [h1, List.range_succ_eq_map]
  rw [List.map_cons, List.map_map]
  congr 1
  · show i + Int.ofNat 0 = i
    simp [Int.ofNat_eq_natCast]
  · apply List.map_congr_left
    intro k _
    show i + Int.ofNat (Nat.succ k) = i + 1 + Int.ofNat k
    simp only [Int.ofNat_eq_natCast]
    push_cast
    ring

theorem rangeZ_nil (i hi : ℤ) (h : hi ≤ i) : rangeZ i hi = [] := by
  unfold rangeZ
  have : (hi - i).toNat = 0 := by omega
  rw [this]
  rfl

theorem valAt_eq (points : List Point3D) (arr : List ℕ) (j : ℤ) (axis : ℕ) :
    valAt points arr j axis = coordOf (points.getD (getI arr j) default) axis := rfl

theorem partitionLoop_inv (points : List Point3D) (axis : ℕ) (pivotVal : ℚ)
    (lo hi : ℤ) (h0 : 0 ≤ lo) :
    ∀ (n : ℕ) (i : ℤ) (arr : List ℕ) (store : ℤ),
      (hi - i).toNat = n →
      lo ≤ store → store ≤ i → i ≤ hi → hi < (arr.length : ℤ) →
      (∀ j, lo ≤ j → j < store → valAt points arr j axis < pivotVal) →
      (∀ j, store ≤ j → j < i → ¬ valAt points arr j axis < pivotVal) →
      valAt points arr hi axis = pivotVal →
      let res := partitionLoop points axis pivotVal (rangeZ i hi) (arr, store)
      SegPres arr res.1 lo (hi - 1) ∧
      (lo ≤ res.2 ∧ res.2 ≤ hi) ∧
      (∀ j, lo ≤ j → j < res.2 → valAt points res.1 j axis < pivotVal) ∧
      (∀ j, res.2 ≤ j → j < hi → ¬ valAt points res.1 j axis < pivotVal) ∧
      valAt points res.1 hi axis = pivotVal ∧
      res.1.length = arr.length := by
  intro n
  induction n with
  | zero =>
      intro i arr store hn hls hsi hih hlen inv1 inv2 invP
      have hieq : hi ≤ i := by omega
      rw [rangeZ_nil i hi hieq]
      exact ⟨segPres_refl _ _ _, ⟨hls, le_trans hsi hih⟩,
        inv1, fun j hj1 hj2 => inv2 j hj1 (by omega), invP, rfl⟩
  | succ n ih =>
      intro i arr store hn hls hsi hih hlen inv1 inv2 invP
      have hilt : i < hi := by omega
      rw [rangeZ_cons i hi hilt]
      simp only [partitionLoop]
      by_cases hc : valAt points arr i axis < pivotVal
      · rw [if_pos hc]
        have hstl : store.toNat < arr.length := by omega
        have hitl : i.toNat < arr.length := by omega
        have hswlen : (lswap arr store i).length = arr.length := lswap_length _ _ _
        have inv1' : ∀ j, lo ≤ j → j < store + 1 →
            valAt points (lswap arr store i) j axis < pivotVal := by
          intro j hj1 hj2
          by_cases hjs : j = store
          · subst hjs
            rw [valAt_eq, getI_lswap_left arr j i hstl hitl, ← valAt_eq]
            exact hc
          · have hj2' : j < store := by omega
            rw [valAt_eq, getI_lswap_other arr store i j (by omega) (by omega),
              ← valAt_eq]
            exact inv1 j hj1 hj2'
        have inv2' : ∀ j, store + 1 ≤ j → j < i + 1 →
            ¬ valAt points (lswap arr store i) j axis < pivotVal := by
          intro j hj1 hj2
          by_cases hji : j = i
          · subst hji
            rw [valAt_eq, getI_lswap_right arr store j hstl hitl, ← valAt_eq]
            exact inv2 store le_rfl (by omega)
          · have : j < i := by omega
            rw [valAt_eq, getI_lswap_other arr store i j (by omega) (by omega),
              ← valAt_eq]
            exact inv2 j (by omega) this
        have invP' : valAt points (lswap arr store i) hi axis = pivotVal := by
          rw [valAt_eq, getI_lswap_other arr store i hi (by omega) (by omega), ← valAt_eq]
          exact invP
        have hres := ih (i + 1) (lswap arr store i) (store + 1) (by omega)
          (by omega) (by omega) (by omega) (by omega) inv1' inv2' invP'
        refine ⟨?_, hres.2.1, hres.2.2.1, hres.2.2.2.1, hres.2.2.2.2.1,
          hres.2.2.2.2.2.trans hswlen⟩
        refine segPres_trans ?_ hres.1
        exact segPres_lswap arr store i lo (hi - 1) h0 ⟨hls, by omega⟩
          ⟨by omega, by omega⟩ hstl hitl
      · rw [if_neg hc]
        have inv2' : ∀ j, store ≤ j → j < i + 1 →
            ¬ valAt points arr j axis < pivotVal := by
          intro j hj1 hj2
          by_cases hji : j = i
          · subst hji; exact hc
          · exact inv2 j hj1 (by omega)
        exact ih (i + 1) arr store (by omega) hls (by omega) (by omega) hlen
          inv1 inv2' invP

theorem partitionKd_post (points : List Point3D) (axis : ℕ) (arr : List ℕ)
    (lo hi pivotIdx : ℤ) (h0 : 0 ≤ lo) (hlp : lo ≤ pivotIdx) (hph : pivotIdx ≤ hi)
    (hlen : hi < (arr.length : ℤ)) :
    let res := partitionKd points arr lo hi pivotIdx axis
    SegPres arr res.1 lo hi ∧ (lo ≤ res.2 ∧ res.2 ≤ hi) ∧
    (∀ j, lo ≤ j → j < res.2 →
      valAt points res.1 j axis < valAt points res.1 res.2 axis) ∧
    (∀ j, res.2 < j → j ≤ hi →
      ¬ valAt points res.1 j axis < valAt points res.1 res.2 axis) ∧
    res.1.length = arr.length := by
  intro res
  set pivotVal := valAt points arr pivotIdx axis with hpv
  set arr1 := lswap arr pivotIdx hi with harr1
  have hpl : pivotIdx.toNat < arr.length := by omega
  have hhl : hi.toNat < arr.length := by omega
  have h1len : arr1.length = arr.length := lswap_length _ _ _
  have hP1 : valAt points arr1 hi axis = pivotVal := by
    rw [valAt_eq, harr1, getI_lswap_right arr pivotIdx hi hpl hhl, ← valAt_eq]
  have hseg1 : SegPres arr arr1 lo hi :=
    segPres_lswap arr pivotIdx hi lo hi h0 ⟨hlp, hph⟩ ⟨le_trans hlp hph, le_rfl⟩ hpl hhl
  have hloop := partitionLoop_inv points axis pivotVal lo hi h0 (hi - lo).toNat lo arr1 lo
    rfl le_rfl le_rfl (le_trans hlp hph) (by omega)
    (fun j hj1 hj2 => absurd hj1 (by omega))
    (fun j hj1 hj2 => absurd hj1 (by omega)) hP1
  set arr2 := (partitionLoop points axis pivotVal (rangeZ lo hi) (arr1, lo)).1 with harr2
  set store := (partitionLoop points axis pivotVal (rangeZ lo hi) (arr1, lo)).2 with hstore
  obtain ⟨hseg2, ⟨hsl, hsh⟩, hinv1, hinv2, hP2, h2len⟩ := hloop
  have h2len' : arr2.length = arr.length := h2len.trans h1len
  have hstl : store.toNat < arr2.length := by omega
  have hhl2 : hi.toNat < arr2.length := by omega
  have hres1 : res.1 = lswap arr2 store hi := rfl
  have hres2 : res.2 = store := rfl
  have hPstore : valAt points res.1 store axis = pivotVal := by
    rw [hres1, valAt_eq, getI_lswap_left arr2 store hi hstl hhl2, ← valAt_eq]
    exact hP2
  refine ⟨?_, ⟨by rw [hres2]; exact hsl, by rw [hres2]; exact hsh⟩, ?_, ?_, ?_⟩
  · refine segPres_trans hseg1 (segPres_trans
      (segPres_widen hseg2 h0 le_rfl (by omega)) ?_)
    exact segPres_lswap arr2 store hi lo hi h0 ⟨hsl, hsh⟩
      ⟨le_trans hlp hph, le_rfl⟩ hstl hhl2
  · intro j hj1 hj2
    rw [hres2] at hj2
    rw [hres2, hPstore, hres1, valAt_eq,
      getI_lswap_other arr2 store hi j (by omega) (by omega), ← valAt_eq]
    exact hinv1 j hj1 hj2
  · intro j hj1 hj2
    rw [hres2] at hj1
    rw [hres2, hPstore]
    by_cases hjh : j = hi
    · subst hjh
      rw [hres1, valAt_eq, getI_lswap_right arr2 store j hstl hhl2, ← valAt_eq]
      exact hinv2 store le_rfl (by omega)
    · rw [hres1, valAt_eq, getI_lswap_other arr2 store hi j (by omega) (by omega),
        ← valAt_eq]
      exact hinv2 j (by omega) (by omega)
  · rw [hres1]
    exact (lswap_length _ _ _).trans h2len'

theorem selectK_post (points : List Point3D) (axis : ℕ) :
    ∀ (fuel : ℕ) (arr : List ℕ) (lo hi k : ℤ),
      0 ≤ lo → lo ≤ k → k ≤ hi → hi < (arr.length : ℤ) →
      (hi - lo).toNat < fuel →
      let arr' := selectK points axis fuel arr lo hi k
      SegPres arr arr' lo hi ∧
      (∀ j, lo ≤ j → j < k → valAt points arr' j axis ≤ valAt points arr' k axis) ∧
      (∀ j, k < j → j ≤ hi → valAt points arr' k axis ≤ valAt points arr' j axis) ∧
      arr'.length = arr.length := by
  intro fuel
  induction fuel with
  | zero => intro arr lo hi k _ _ _ _ hf; omega
  | succ fuel ih =>
      intro arr lo hi k h0 hlk hkh hlen hf
      by_cases hlh : lo < hi
      · simp only [selectK, if_pos hlh]
        have hmid : lo ≤ (lo + hi) / 2 ∧ (lo + hi) / 2 ≤ hi := by omega
        have hpart := partitionKd_post points axis arr lo hi ((lo + hi) / 2)
          h0 hmid.1 hmid.2 hlen
        set pr := partitionKd points arr lo hi ((lo + hi) / 2) axis with hpr
        obtain ⟨hseg, ⟨hpl, hph⟩, hlt, hge, hplen⟩ := hpart
        by_cases hkp : k = pr.2
        · rw [if_pos hkp]
          subst hkp
          exact ⟨hseg, fun j h1 h2 => le_of_lt (hlt j h1 h2),
            fun j h1 h2 => le_of_not_lt (hge j h1 h2), hplen⟩
        · rw [if_neg hkp]
          by_cases hklt : k < pr.2
          · rw [if_pos hklt]
            have hrec := ih pr.1 lo (pr.2 - 1) k h0 hlk (by omega) (by omega) (by omega)
            set arr2 := selectK points axis fuel pr.1 lo (pr.2 - 1) k with harr2
            obtain ⟨hseg2, hle2, hge2, hlen2⟩ := hrec
            have houtside : ∀ j, pr.2 ≤ j → j ≤ hi → getI arr2 j = getI pr.1 j := by
              intro j h1 h2
              exact hseg2.2.1 j (by omega) (fun hin => absurd hin.2 (by omega))
            have hkts : valAt points arr2 k axis < valAt points pr.1 pr.2 axis := by
              have hkP := hseg2.2.2
                (fun x => coordOf (points.getD x default) axis <
                  valAt points pr.1 pr.2 axis)
                (fun j hj => hlt j hj.1 (by have := hj.2; omega)) k ⟨hlk, by omega⟩
              exact hkP
            refine ⟨segPres_trans hseg (segPres_widen hseg2 h0 le_rfl (by omega)),
              hle2, ?_, hlen2.trans hplen⟩
            intro j h1 h2
            by_cases hjp : j ≤ pr.2 - 1
            · exact hge2 j h1 hjp
            · have hj2 : pr.2 ≤ j := by omega
              have hjv : valAt points arr2 j axis = valAt points pr.1 j axis := by
                rw [valAt_eq, houtside j hj2 h2, ← valAt_eq]
              rw [hjv]
              by_cases hjeq : j = pr.2
              · rw [hjeq]
                exact le_of_lt hkts
              · have := hge j (by omega) h2
                have hv : valAt points pr.1 pr.2 axis ≤ valAt points pr.1 j axis :=
                  le_of_not_lt this
                exact le_trans (le_of_lt hkts) hv
          · rw [if_neg hklt]
            have hkgt : pr.2 < k := by
              rcases lt_or_ge k pr.2 with h | h
              · exact absurd h hklt
              · omega
            have hrec := ih pr.1 (pr.2 + 1) hi k (by omega) (by omega) hkh
              (by omega) (by omega)
            set arr2 := selectK points axis fuel pr.1 (pr.2 + 1) hi k with harr2
            obtain ⟨hseg2, hle2, hge2, hlen2⟩ := hrec
            have houtside : ∀ j, lo ≤ j → j ≤ pr.2 → getI arr2 j = getI pr.1 j := by
              intro j h1 h2
              exact hseg2.2.1 j (by omega) (fun hin => absurd hin.1 (by omega))
            have hkts : valAt points pr.1 pr.2 axis ≤ valAt points arr2 k axis := by
              have hkP := hseg2.2.2
                (fun x => valAt points pr.1 pr.2 axis ≤
                  coordOf (points.getD x default) axis)
                (fun j hj => le_of_not_lt (hge j (by have := hj.1; omega) hj.2)) k ⟨by omega, hkh⟩
              exact hkP
            refine ⟨segPres_trans hseg (segPres_widen hseg2 h0 (by omega) le_rfl),
              ?_, hge2, hlen2.trans hplen⟩
            intro j h1 h2
            by_cases hjp : pr.2 + 1 ≤ j
            · exact hle2 j hjp h2
            · have hj2 : j ≤ pr.2 := by omega
              have hjv : valAt points arr2 j axis = valAt points pr.1 j axis := by
                rw [valAt_eq, houtside j h1 hj2, ← valAt_eq]
              rw [hjv]
              by_cases hjeq : j = pr.2
              · rw [hjeq]
                exact hkts
              · have hv : valAt points pr.1 j axis < valAt points pr.1 pr.2 axis :=
                  hlt j h1 (by omega)
                exact le_trans (le_of_lt hv) hkts
      · simp only [selectK, if_neg hlh]
        have hkl : k = lo := by omega
        refine ⟨segPres_refl _ _ _, ?_, ?_, trivial⟩
        · intro j h1 h2
          omega
        · intro j h1 h2
          omega

/-- The k-d invariant with non-strict left bound as a proposition: correct
split axes (`d % 3`) and ordering of both subtrees at every node. -/
def KdInvP : Option KdNode → ℕ → Prop
  | none, _ => True
  | some (.node p axis l r), d =>
      axis = d % 3 ∧
      (∀ q ∈ treePts l, coordOf q axis ≤ coordOf p axis) ∧
      (∀ q ∈ treePts r, coordOf p axis ≤ coordOf q axis) ∧
      KdInvP l (d + 1) ∧ KdInvP r (d + 1)

theorem buildKd_post (points : List Point3D) :
    ∀ (fuel : ℕ) (arr : List ℕ) (lo hi : ℤ) (depth : ℕ),
      0 ≤ lo → hi < (arr.length : ℤ) → (hi + 1 - lo).toNat < fuel →
      let res := buildKd points fuel arr lo hi depth
      SegPres arr res.2 lo hi ∧ res.2.length = arr.length ∧
      (∀ q ∈ treePts res.1, ∃ j, inSeg lo hi j ∧
        q = points.getD (getI res.2 j) default) ∧
      KdInvP res.1 depth := by
  intro fuel
  induction fuel with
  | zero => intro arr lo hi depth _ _ hf; omega
  | succ fuel ih =>
      intro arr lo hi depth h0 hlen hf
      by_cases hlh : lo > hi
      · simp only [buildKd, if_pos hlh]
        refine ⟨segPres_refl _ _ _, trivial,
          fun q hq => absurd hq (by simp [treePts]), ?_⟩
        simp [KdInvP]
      · simp only [buildKd, if_neg hlh]
        have hlohi : lo ≤ hi := by omega
        have hmid : lo ≤ (lo + hi) / 2 ∧ (lo + hi) / 2 ≤ hi := by omega
        set mid := (lo + hi) / 2 with hmiddef
        have hsel := selectK_post points (depth % 3) ((hi - lo).toNat + 1) arr lo hi mid
          h0 hmid.1 hmid.2 hlen (by omega)
        set arr1 := selectK points (depth % 3) ((hi - lo).toNat + 1) arr lo hi mid
          with harr1
        obtain ⟨hseg1, hle1, hge1, hlen1⟩ := hsel
        have hlres := ih arr1 lo (mid - 1) (depth + 1) h0 (by omega) (by omega)
        set lres := buildKd points fuel arr1 lo (mid - 1) (depth + 1) with hlresdef
        obtain ⟨hseg2, hlen2, hpts2, hinv2⟩ := hlres
        have hrres := ih lres.2 (mid + 1) hi (depth + 1) (by omega) (by omega)
          (by omega)
        set rres := buildKd points fuel lres.2 (mid + 1) hi (depth + 1) with hrresdef
        obtain ⟨hseg3, hlen3, hpts3, hinv3⟩ := hrres
        have hmid2 : getI lres.2 mid = getI arr1 mid :=
          hseg2.2.1 mid (by omega) (fun hin => absurd hin.2 (by omega))
        have hmid3 : getI rres.2 mid = getI lres.2 mid :=
          hseg3.2.1 mid (by omega) (fun hin => absurd hin.1 (by omega))
        have houtside23 : ∀ j, inSeg lo (mid - 1) j → getI rres.2 j = getI lres.2 j :=
          fun j hj => hseg3.2.1 j (by have := hj.1; omega)
            (fun hin => by have := hj.2; have := hin.1; omega)
        refine ⟨?_, hlen3.trans (hlen2.trans hlen1), ?_, ?_⟩
        · exact segPres_trans hseg1 (segPres_trans
            (segPres_widen hseg2 h0 le_rfl (by omega))
            (segPres_widen hseg3 h0 (by omega) le_rfl))
        · intro q hq
          simp only [treePts, List.mem_cons, List.mem_append] at hq
          rcases hq with hq | hq | hq
          · refine ⟨mid, ⟨hmid.1, hmid.2⟩, ?_⟩
            rw [hq]
            show points.getD (getI arr1 mid) default =
              points.getD (getI rres.2 mid) default
            rw [hmid3, hmid2]
          · obtain ⟨j, hj, hqj⟩ := hpts2 q hq
            exact ⟨j, ⟨hj.1, by have := hj.2; omega⟩, by
              rw [hqj, houtside23 j hj]⟩
          · obtain ⟨j, hj, hqj⟩ := hpts3 q hq
            exact ⟨j, ⟨by have := hj.1; omega, hj.2⟩, hqj⟩
        · simp only [KdInvP]
          refine ⟨trivial, ?_, ?_, hinv2, hinv3⟩
          · intro q hq
            obtain ⟨j, hj, hqj⟩ := hpts2 q hq
            have hP := hseg2.2.2
              (fun x => coordOf (points.getD x default) (depth % 3) ≤
                valAt points arr1 mid (depth % 3))
              (fun j' hj' => hle1 j' hj'.1 (by have := hj'.2; omega)) j hj
            rw [hqj]
            exact hP
          · intro q hq
            obtain ⟨j, hj, hqj⟩ := hpts3 q hq
            have hstart : ∀ j', inSeg (mid + 1) hi j' →
                (fun x => valAt points arr1 mid (depth % 3) ≤
                  coordOf (points.getD x default) (depth % 3)) (getI lres.2 j') := by
              intro j' hj'
              have heq : getI lres.2 j' = getI arr1 j' :=
                hseg2.2.1 j' (by have := hj'.1; omega)
                  (fun hin => by have := hin.2; have := hj'.1; omega)
              rw [heq]
              exact hge1 j' (by have := hj'.1; omega) hj'.2
            have hP := hseg3.2.2
              (fun x => valAt points arr1 mid (depth % 3) ≤
                coordOf (points.getD x default) (depth % 3)) hstart j hj
            rw [hqj]
            exact hP

theorem buildKdTree_inv (points : List Point3D) : KdInvP (buildKdTree points) 0 := by
  unfold buildKdTree
  by_cases hn : points.length = 0
  · rw [if_pos hn]
    simp [KdInvP]
  · rw [if_neg hn]
    have hpost := buildKd_post points (points.length + 1) (List.range points.length)
      0 ((points.length : ℤ) - 1) 0 le_rfl (by simp) (by omega)
    exact hpost.2.2.2

theorem buildKdTree_mem (points : List Point3D) :
    ∀ q ∈ treePts (buildKdTree points), q ∈ points := by
  intro q hq
  unfold buildKdTree at hq
  by_cases hn : points.length = 0
  · rw [if_pos hn] at hq
    simp [treePts] at hq
  · rw [if_neg hn] at hq
    have hpost := buildKd_post points (points.length + 1) (List.range points.length)
      0 ((points.length : ℤ) - 1) 0 le_rfl (by simp) (by omega)
    obtain ⟨j, hj, hqj⟩ := hpost.2.2.1 q hq
    have hjlen : j.toNat < points.length := by
      have := hj.1
      have := hj.2
      omega
    have hstart : ∀ j', inSeg 0 ((points.length : ℤ) - 1) j' →
        (fun x => x < points.length) (getI (List.range points.length) j') := by
      intro j' hj'
      have hj'len : j'.toNat < points.length := by
        have := hj'.1
        have := hj'.2
        omega
      show (List.range points.length).getD j'.toNat 0 < points.length
      rw [List.getD_eq_getElem?_getD, List.getElem?_eq_getElem (by simpa using hj'len)]
      simpa using hj'len
    have hPj := hpost.1.2.2 (fun x => x < points.length) hstart j hj
    rw [hqj]
    have hlt : getI (buildKd points (points.length + 1) (List.range points.length)
        0 ((points.length : ℤ) - 1) 0).2 j < points.length := hPj
    rw [getI] at hlt
    rw [List.getD_eq_getElem?_getD, List.getElem?_eq_getElem ?hb]
    case hb =>
      have hlen := hpost.2.1
      simp only [List.length_range] at hlen
      omega
    simp only [Option.getD_some]
    exact List.getElem_mem _

/-! ## C8: the k-d tree invariant -/

/-- C8 counterexample: three points sharing the x-coordinate 2.  The build
places `(2,1,0)` in the LEFT subtree of the root `(2,2,0)` split on axis 0,
with equal x-coordinates — so the claimed strict invariant
(`left coord < node coord`) fails on this tree. -/
theorem c8_counterexample :
    buildKdTree
        [{ x := 2, y := 0, z := 0 }, { x := 2, y := 1, z := 0 },
         { x := 2, y := 2, z := 0 }] =
      some (.node { x := 2, y := 2, z := 0 } 0
        (some (.node { x := 2, y := 1, z := 0 } 1 none none))
        (some (.node { x := 2, y := 0, z := 0 } 1 none none))) ∧
    ¬ KdStrictP (buildKdTree
        [{ x := 2, y := 0, z := 0 }, { x := 2, y := 1, z := 0 },
         { x := 2, y := 2, z := 0 }]) 0 := by
  have htree : buildKdTree
      [{ x := 2, y := 0, z := 0 }, { x := 2, y := 1, z := 0 },
       { x := 2, y := 2, z := 0 }] =
      some (.node { x := 2, y := 2, z := 0 } 0
        (some (.node { x := 2, y := 1, z := 0 } 1 none none))
        (some (.node { x := 2, y := 0, z := 0 } 1 none none))) := by rfl
  refine ⟨htree, ?_⟩
  rw [htree]
  intro hstrict
  simp only [KdStrictP] at hstrict
  have hleft := hstrict.2.1 { x := 2, y := 1, z := 0 } (by simp [treePts])
  simp [coordOf] at hleft

/-- C8 (amended): the tree built by `buildKdTree` satisfies, at every node
with split axis `a` at depth `d`: `a = d % 3`, every left-subtree point has
`coord_a ≤` the node's coordinate (non-strict — duplicates of the median
coordinate can land on the left), and every right-subtree point has
`coord_a ≥` the node's coordinate. -/
theorem c8_kd_invariant (points : List Point3D) :
    KdInvP (buildKdTree points) 0 :=
  buildKdTree_inv points

/-! ## C5 amended: no-hit pixels carry the interior fill (or are untouched) -/

/-- A buffer transformation that can only write the single value `fill`. -/
def WritesOnly (fill : ℕ) (c c' : List ℕ) : Prop :=
  ∀ j, c'.getD j 0 = c.getD j 0 ∨ c'.getD j 0 = fill

theorem writesOnly_refl (fill : ℕ) (c : List ℕ) : WritesOnly fill c c :=
  fun _ => Or.inl rfl

theorem writesOnly_trans {fill : ℕ} {a b c : List ℕ} (h1 : WritesOnly fill a b)
    (h2 : WritesOnly fill b c) : WritesOnly fill a c := by
  intro j
  rcases h2 j with h | h
  · rw [h]; exact h1 j
  · exact Or.inr h

theorem writesOnly_set (fill : ℕ) (c : List ℕ) (i : ℕ) :
    WritesOnly fill c (c.set i fill) := by
  intro j
  by_cases hij : i = j
  · subst hij
    by_cases hlen : i < c.length
    · right
      rw [List.getD_eq_getElem?_getD, List.getElem?_set_self (by simpa using hlen)]
      simp
    · left
      rw [List.set_eq_of_length_le (by omega)]
  · left
    rw [List.getD_eq_getElem?_getD, List.getElem?_set_ne hij,
      ← List.getD_eq_getElem?_getD]

theorem ffWest_writes (target fill : ℕ) :
    ∀ (xL : ℕ) (cur : List ℕ) (i cnt : ℕ),
      WritesOnly fill cur (ffWest target fill xL cur i cnt).1 := by
  intro xL
  induction xL with
  | zero =>
      intro cur i cnt
      simp only [ffWest]
      split
      · exact writesOnly_set fill cur i
      · exact writesOnly_refl fill cur
  | succ xL ih =>
      intro cur i cnt
      simp only [ffWest]
      split
      · exact writesOnly_trans (writesOnly_set fill cur i) (ih _ _ _)
      · exact writesOnly_refl fill cur

theorem ffEast_writes (target fill : ℕ) :
    ∀ (fuel : ℕ) (cur : List ℕ) (right cnt : ℕ),
      WritesOnly fill cur (ffEast target fill fuel cur right cnt).1 := by
  intro fuel
  induction fuel with
  | zero => intro cur right cnt; exact writesOnly_refl fill cur
  | succ fuel ih =>
      intro cur right cnt
      simp only [ffEast]
      split
      · exact writesOnly_trans (writesOnly_set fill cur right) (ih _ _ _)
      · exact writesOnly_refl fill cur

theorem ffLoop_writes (target fill width height : ℕ) :
    ∀ (fuel : ℕ) (stack cur : List ℕ) (cnt : ℕ),
      WritesOnly fill cur (ffLoop target fill width height fuel stack cur cnt).2 := by
  intro fuel
  induction fuel with
  | zero => intro stack cur cnt; exact writesOnly_refl fill cur
  | succ fuel ih =>
      intro stack cur cnt
      match stack with
      | [] => exact writesOnly_refl fill cur
      | i :: rest =>
          simp only [ffLoop]
          split
          · exact ih _ _ _
          · exact writesOnly_trans (ffWest_writes target fill _ cur i cnt)
              (writesOnly_trans (ffEast_writes target fill _ _ _ _) (ih _ _ _))

theorem floodFill_writes (img : Img) (x y : ℤ) (r g b a : ℕ) :
    ∀ j, ((floodFillFrom img x y r g b a).2).pixels.getD j 0 = img.pixels.getD j 0 ∨
      ((floodFillFrom img x y r g b a).2).pixels.getD j 0 = wordOf r g b a := by
  intro j
  unfold floodFillFrom
  split
  · exact Or.inl rfl
  · dsimp only
    split
    · exact Or.inl rfl
    · exact ffLoop_writes _ _ _ _ _ _ _ _ j

theorem floodFill_dims (img : Img) (x y : ℤ) (r g b a : ℕ) :
    ((floodFillFrom img x y r g b a).2).width = img.width ∧
    ((floodFillFrom img x y r g b a).2).height = img.height := by
  unfold floodFillFrom
  split
  · exact ⟨rfl, rfl⟩
  · dsimp only
    split
    · exact ⟨rfl, rfl⟩
    · exact ⟨rfl, rfl⟩

/-- Linearised pixel indices are injective within a row-major raster. -/
theorem idx_inj (W c col r row : ℕ) (hc : c < W) (hcol : col < W)
    (h : r * W + c = row * W + col) : c = col ∧ r = row := by
  have hmod : c = col := by
    have h1 : (c + r * W) % W = (col + row * W) % W := by
      have h2 : c + r * W = col + row * W := by omega
      rw [h2]
    rw [Nat.add_mul_mod_self_right, Nat.add_mul_mod_self_right,
      Nat.mod_eq_of_lt hc, Nat.mod_eq_of_lt hcol] at h1
    exact h1
  subst hmod
  refine ⟨rfl, ?_⟩
  have hW : 0 < W := Nat.pos_of_ne_zero (by omega)
  have : r * W = row * W := by omega
  exact Nat.eq_of_mul_eq_mul_right hW this

theorem rasterPix_dims (ply : PLYStore) (R zW xq yq : ℚ) (c r : ℕ) (img : Img) :
    (rasterPix ply R zW xq yq c r img).width = img.width ∧
    (rasterPix ply R zW xq yq c r img).height = img.height := by
  unfold rasterPix
  split
  · exact ⟨rfl, rfl⟩
  · split
    · exact ⟨rfl, rfl⟩
    · exact ⟨rfl, rfl⟩

theorem rasterPix_getPx_ne (ply : PLYStore) (R zW xq yq : ℚ) (c r col row : ℕ)
    (img : Img) (hc : c < img.width) (hcol : col < img.width)
    (hne : ¬(c = col ∧ r = row)) :
    getPx (rasterPix ply R zW xq yq c r img) col row = getPx img col row := by
  unfold rasterPix
  split
  · rfl
  · split
    · rfl
    · show getPx (setPixel img c r _ _ _ 255) col row = getPx img col row
      unfold getPx setPixel
      simp only
      rw [List.getD_eq_getElem?_getD, List.getElem?_set_ne, ← List.getD_eq_getElem?_getD]
      intro hidx
      exact hne (idx_inj img.width c col r row hc hcol hidx)

theorem rasterPix_skip (ply : PLYStore) (R zW xq yq : ℚ) (c r : ℕ) (img : Img)
    (hskip : ∀ pd, nearestPoint ply (xq, yq, zW)
      { maxDistanceX := some (R * 4), maxDistanceY := some (R * 4),
        maxDistanceZ := some (R * (1 / 10)) } = some pd → R * R < pd.2) :
    rasterPix ply R zW xq yq c r img = img := by
  unfold rasterPix
  split
  · rfl
  · rename_i pd hpd
    rw [if_pos (hskip pd hpd)]

theorem foldl_invariant {α β : Type} (f : β → α → β) (l : List α) (b : β)
    (P : β → Prop) (h : ∀ a ∈ l, ∀ s, P s → P (f s a)) (hb : P b) :
    P (l.foldl f b) := by
  induction l generalizing b with
  | nil => exact hb
  | cons a t ih =>
      rw [List.foldl_cons]
      exact ih _ (fun a' ha' s hs => h a' (List.mem_cons_of_mem _ ha') s hs)
        (h a (List.mem_cons_self _ _) b hb)

/-- With the default axes, the masked squared distance is the full squared
Euclidean distance. -/
theorem maskedSqDist_full (t : ℚ × ℚ × ℚ) (p : Point3D) :
    maskedSqDist 7 t p = sqDist p t := by
  simp [maskedSqDist, sqDist, land71, land72, land74]

/-- Half-voxel-centred world coordinate of raster index `idx` on an axis:
`min + ((idx + 0.5) / size) · span`. -/
def worldX (minv size : ℚ) (n idx : ℕ) : ℚ :=
  minv + (((idx : ℚ) + 1 / 2) / (n : ℚ)) * size

theorem replicate_getD_zero (n j : ℕ) : (List.replicate n (0 : ℕ)).getD j 0 = 0 := by
  rw [List.getD_eq_getElem?_getD, List.getElem?_replicate]
  split <;> rfl

/-- C5 (amended): if no point of the cloud lies within the configured
radius of `world(col,row,z)`, the emitted pixel at `(col,row)` is NOT
painted by the sampler: it keeps its pre-sampling value, which is either
the interior flood-fill color `(247,247,247,128)` or 0 where the fill did
not reach — it need not be transparent. -/
theorem c5_nohit_pixel (pts : List Point3D) (width height depth : ℕ)
    (minx miny minz xSize ySize zSize R : ℚ) (z col row : ℕ)
    (hcol : col < width) (hrow : row < height)
    (hnohit : ∀ p ∈ pts, R * R < sqDist p
      (worldX minx xSize width col, worldX miny ySize height row,
       worldX minz zSize depth z)) :
    getPx (rasterizeSlice (mkPLY pts) width height depth minx miny minz
      xSize ySize zSize R z) col row = 0 ∨
    getPx (rasterizeSlice (mkPLY pts) width height depth minx miny minz
      xSize ySize zSize R z) col row = wordOf 247 247 247 128 := by
  have hskip : ∀ pd, nearestPoint (mkPLY pts)
      (worldX minx xSize width col, worldX miny ySize height row,
       worldX minz zSize depth z)
      { maxDistanceX := some (R * 4), maxDistanceY := some (R * 4),
        maxDistanceZ := some (R * (1 / 10)) } = some pd → R * R < pd.2 := by
    intro pd hpd
    obtain ⟨hmem, hdist, _⟩ := nearestPoint_sound (mkPLY pts) _ _ pd.1 pd.2
      (by rw [← hpd])
    have hpts : pd.1 ∈ pts := buildKdTree_mem pts pd.1 hmem
    have hdist' : pd.2 = maskedSqDist (maskFromAxes "xyz") _ pd.1 := hdist
    rw [maskFromAxes_xyz, maskedSqDist_full] at hdist'
    rw [hdist']
    exact hnohit pd.1 hpts
  simp only [rasterizeSlice]
  have hdims1 := floodFill_dims (mkImg width height)
    ((width / 2 : ℕ) : ℤ) ((height / 2 : ℕ) : ℤ) 247 247 247 128
  have hV : ∀ img1v, img1v = (floodFillFrom (mkImg width height)
      ((width / 2 : ℕ) : ℤ) ((height / 2 : ℕ) : ℤ) 247 247 247 128).2 →
      getPx img1v col row = 0 ∨ getPx img1v col row = wordOf 247 247 247 128 := by
    intro img1v himg
    subst himg
    unfold getPx
    rcases floodFill_writes (mkImg width height) ((width / 2 : ℕ) : ℤ)
      ((height / 2 : ℕ) : ℤ) 247 247 247 128 (row * _ + col) with h | h
    · left
      rw [h]
      exact replicate_getD_zero _ _
    · right
      exact h
  have hmain := foldl_invariant
    (fun imgC (column : ℕ) =>
      (List.range height).foldl
        (fun imgR (rw0 : ℕ) =>
          rasterPix (mkPLY pts) R
            (minz + (((z : ℚ) + 1 / 2) / (depth : ℚ)) * zSize)
            (minx + (((column : ℚ) + 1 / 2) / (width : ℚ)) * xSize)
            (miny + (((rw0 : ℚ) + 1 / 2) / (height : ℚ)) * ySize)
            column rw0 imgR)
        imgC)
    (List.range width)
    ((floodFillFrom (mkImg width height) ((width / 2 : ℕ) : ℤ)
      ((height / 2 : ℕ) : ℤ) 247 247 247 128).2)
    (fun img => img.width = width ∧ img.height = height ∧
      (getPx img col row = 0 ∨ getPx img col row = wordOf 247 247 247 128))
    ?step ⟨hdims1.1, hdims1.2, hV _ rfl⟩
  case step =>
    intro c hc imgC hPC
    refine foldl_invariant _ (List.range height) imgC
      (fun img => img.width = width ∧ img.height = height ∧
        (getPx img col row = 0 ∨ getPx img col row = wordOf 247 247 247 128))
      ?inner hPC
    intro r hr imgR hPR
    have hdims := rasterPix_dims (mkPLY pts) R
      (minz + (((z : ℚ) + 1 / 2) / (depth : ℚ)) * zSize)
      (minx + (((c : ℚ) + 1 / 2) / (width : ℚ)) * xSize)
      (miny + (((r : ℚ) + 1 / 2) / (height : ℚ)) * ySize) c r imgR
    refine ⟨hdims.1.trans hPR.1, hdims.2.trans hPR.2.1, ?_⟩
    by_cases hcr : c = col ∧ r = row
    · obtain ⟨rfl, rfl⟩ := hcr
      show getPx (rasterPix (mkPLY pts) R (worldX minz zSize depth z)
          (worldX minx xSize width c) (worldX miny ySize height r) c r imgR) c r = 0 ∨
        getPx (rasterPix (mkPLY pts) R (worldX minz zSize depth z)
          (worldX minx xSize width c) (worldX miny ySize height r) c r imgR) c r =
          wordOf 247 247 247 128
      rw [rasterPix_skip _ _ _ _ _ _ _ _ hskip]
      exact hPR.2.2
    · rw [rasterPix_getPx_ne _ _ _ _ _ _ _ _ _ _
        (by rw [hPR.1]; exact List.mem_range.mp hc)
        (by rw [hPR.1]; exact hcol) hcr]
      exact hPR.2.2
  exact hmain.2.2

/-- Witness for `c5_nohit_pixel`: a 1×1×1 build over a cloud whose single
point is far from the sampled world position. -/
theorem c5_nohit_pixel_witness :
    getPx (rasterizeSlice (mkPLY [{ x := 10, y := 10, z := 10 }]) 1 1 1
      0 0 0 0 0 0 1 0) 0 0 = 0 ∨
    getPx (rasterizeSlice (mkPLY [{ x := 10, y := 10, z := 10 }]) 1 1 1
      0 0 0 0 0 0 1 0) 0 0 = wordOf 247 247 247 128 :=
  c5_nohit_pixel [{ x := 10, y := 10, z := 10 }] 1 1 1 0 0 0 0 0 0 1 0 0 0
    (by decide) (by decide)
    (by
      intro p hp
      rcases List.mem_singleton.mp hp with rfl
      norm_num [sqDist, worldX])

/-! ## C6: full correctness of the scanline flood fill -/

theorem countP_set_of (p : ℕ → Bool) :
    ∀ (l : List ℕ) (j : ℕ) (v : ℕ), j < l.length →
      p (l.getD j 0) = true → p v = false →
      (l.set j v).countP p + 1 = l.countP p := by
  intro l
  induction l with
  | nil => intro j v hj; simp at hj
  | cons h t ih =>
      intro j v hj hold hnew
      match j with
      | 0 =>
          have hold' : p h = true := by simpa using hold
          simp only [List.set_cons_zero, List.countP_cons, hold', hnew]
          simp
      | j + 1 =>
          simp only [List.getD_cons_succ] at hold
          simp only [List.set_cons_succ, List.countP_cons]
          have := ih j v (by simpa using hj) hold hnew
          omega

theorem getD_set_self (l : List ℕ) (j v : ℕ) (hj : j < l.length) :
    (l.set j v).getD j 0 = v := by
  rw [List.getD_eq_getElem?_getD, List.getElem?_set_self (by simpa using hj)]
  rfl

theorem getD_set_ne (l : List ℕ) (i j v : ℕ) (hij : i ≠ j) :
    (l.set i v).getD j 0 = l.getD j 0 := by
  rw [List.getD_eq_getElem?_getD, List.getElem?_set_ne hij,
    ← List.getD_eq_getElem?_getD]

theorem ffWest_zero (target fill : ℕ) (cur : List ℕ) (i cnt : ℕ) :
    ffWest target fill 0 cur i cnt =
      if cur.getD i 0 = target then (cur.set i fill, cnt + 1, i)
      else (cur, cnt, i + 1) := rfl

theorem ffWest_succ (target fill xL : ℕ) (cur : List ℕ) (i cnt : ℕ) :
    ffWest target fill (xL + 1) cur i cnt =
      if cur.getD i 0 = target then
        ffWest target fill xL (cur.set i fill) (i - 1) (cnt + 1)
      else (cur, cnt, i + 1) := rfl

theorem ffWest_spec (target fill : ℕ) (htf : target ≠ fill) :
    ∀ (xL : ℕ) (cur : List ℕ) (i cnt : ℕ), xL ≤ i → i < cur.length →
      cur.getD i 0 = target →
      ∃ start : ℕ,
        (ffWest target fill xL cur i cnt).2.2 = start ∧
        i - xL ≤ start ∧ start ≤ i ∧
        (∀ j, start ≤ j → j ≤ i → cur.getD j 0 = target) ∧
        (∀ j, start ≤ j → j ≤ i →
          (ffWest target fill xL cur i cnt).1.getD j 0 = fill) ∧
        (∀ j, j < start ∨ i < j →
          (ffWest target fill xL cur i cnt).1.getD j 0 = cur.getD j 0) ∧
        (ffWest target fill xL cur i cnt).2.1 = cnt + (i + 1 - start) ∧
        (ffWest target fill xL cur i cnt).1.length = cur.length ∧
        (ffWest target fill xL cur i cnt).1.countP (fun v => decide (v = target))
          + (i + 1 - start) = cur.countP (fun v => decide (v = target)) ∧
        (start = i - xL ∨ cur.getD (start - 1) 0 ≠ target) := by
  intro xL
  induction xL with
  | zero =>
      intro cur i cnt hxi hi heq
      rw [ffWest_zero, if_pos heq]
      refine ⟨i, rfl, by omega, le_rfl, ?_, ?_, ?_,
        (show cnt + 1 = cnt + (i + 1 - i) by omega), by simp, ?_,
        Or.inl (by omega)⟩
      · intro j h1 h2
        have : j = i := by omega
        rw [this]; exact heq
      · intro j h1 h2
        have : j = i := by omega
        subst this
        exact getD_set_self cur j fill hi
      · intro j hj
        exact getD_set_ne cur i j fill (by omega)
      · show (cur.set i fill).countP (fun v => decide (v = target)) + (i + 1 - i)
          = cur.countP (fun v => decide (v = target))
        have := countP_set_of (fun v => decide (v = target)) cur i fill hi
          (by rw [heq]; simp) (by simp [Ne.symm htf])
        omega
  | succ xL ih =>
      intro cur i cnt hxi hi heq
      rw [ffWest_succ, if_pos heq]
      have hi1 : i - 1 < (cur.set i fill).length := by simp; omega
      have hxi1 : xL ≤ i - 1 := by omega
      by_cases hprev : (cur.set i fill).getD (i - 1) 0 = target
      · obtain ⟨start, hst, hlb, hub, hold, hnew, hunch, hcnt, hlen2, hcp, hbd⟩ :=
          ih (cur.set i fill) (i - 1) (cnt + 1) hxi1 hi1 hprev
        refine ⟨start, hst, by omega, by omega, ?_, ?_, ?_, ?_, ?_, ?_, ?_⟩
        · intro j h1 h2
          by_cases hji : j = i
          · rw [hji]; exact heq
          · have := hold j h1 (by omega)
            rw [getD_set_ne cur i j fill (by omega)] at this
            exact this
        · intro j h1 h2
          by_cases hji : j = i
          · subst hji
            rw [hunch j (Or.inr (by omega))]
            exact getD_set_self cur j fill hi
          · exact hnew j h1 (by omega)
        · intro j hj
          rcases hj with hj | hj
          · rw [hunch j (Or.inl hj)]
            exact getD_set_ne cur i j fill (by omega)
          · rw [hunch j (Or.inr (by omega))]
            exact getD_set_ne cur i j fill (by omega)
        · rw [hcnt]; omega
        · rw [hlen2]; simp
        · have hone := countP_set_of (fun v => decide (v = target)) cur i fill hi
            (by rw [heq]; simp) (by simp [Ne.symm htf])
          omega
        · rcases hbd with hbd | hbd
          · left; omega
          · right
            rw [getD_set_ne cur i (start - 1) fill (by omega)] at hbd
            exact hbd
      · have hstop : ffWest target fill xL (cur.set i fill) (i - 1) (cnt + 1) =
            (cur.set i fill, cnt + 1, i - 1 + 1) := by
          cases xL with
          | zero => rw [ffWest_zero, if_neg hprev]
          | succ m => rw [ffWest_succ, if_neg hprev]
        rw [hstop]
        have hprev' : cur.getD (i - 1) 0 ≠ target := by
          rw [← getD_set_ne cur i (i - 1) fill (by omega)]
          exact hprev
        refine ⟨i, (show i - 1 + 1 = i by omega), by omega, le_rfl, ?_, ?_, ?_,
          (show cnt + 1 = cnt + (i + 1 - i) by omega), by simp, ?_,
          Or.inr (by simpa using hprev')⟩
        · intro j h1 h2
          have : j = i := by omega
          rw [this]; exact heq
        · intro j h1 h2
          have : j = i := by omega
          subst this
          exact getD_set_self cur j fill hi
        · intro j hj
          exact getD_set_ne cur i j fill (by omega)
        · show (cur.set i fill).countP (fun v => decide (v = target)) + (i + 1 - i)
            = cur.countP (fun v => decide (v = target))
          have := countP_set_of (fun v => decide (v = target)) cur i fill hi
            (by rw [heq]; simp) (by simp [Ne.symm htf])
          omega

theorem ffEast_zero (target fill : ℕ) (cur : List ℕ) (right cnt : ℕ) :
    ffEast target fill 0 cur right cnt = (cur, cnt, right) := rfl

theorem ffEast_succ (target fill fuel : ℕ) (cur : List ℕ) (right cnt : ℕ) :
    ffEast target fill (fuel + 1) cur right cnt =
      if cur.getD right 0 = target then
        ffEast target fill fuel (cur.set right fill) (right + 1) (cnt + 1)
      else (cur, cnt, right) := rfl

theorem ffEast_spec (target fill : ℕ) (htf : target ≠ fill) :
    ∀ (fuel : ℕ) (cur : List ℕ) (right cnt : ℕ), right + fuel ≤ cur.length →
      ∃ stop : ℕ,
        (ffEast target fill fuel cur right cnt).2.2 = stop ∧
        right ≤ stop ∧ stop ≤ right + fuel ∧
        (∀ j, right ≤ j → j < stop → cur.getD j 0 = target) ∧
        (∀ j, right ≤ j → j < stop →
          (ffEast target fill fuel cur right cnt).1.getD j 0 = fill) ∧
        (∀ j, j < right ∨ stop ≤ j →
          (ffEast target fill fuel cur right cnt).1.getD j 0 = cur.getD j 0) ∧
        (ffEast target fill fuel cur right cnt).2.1 = cnt + (stop - right) ∧
        (ffEast target fill fuel cur right cnt).1.length = cur.length ∧
        (ffEast target fill fuel cur right cnt).1.countP (fun v => decide (v = target))
          + (stop - right) = cur.countP (fun v => decide (v = target)) ∧
        (stop = right + fuel ∨ cur.getD stop 0 ≠ target) := by
  intro fuel
  induction fuel with
  | zero =>
      intro cur right cnt hb
      rw [ffEast_zero]
      exact ⟨right, rfl, le_rfl, by omega, fun j h1 h2 => absurd h2 (by omega),
        fun j h1 h2 => absurd h2 (by omega), fun j hj => rfl,
        (show cnt = cnt + (right - right) by omega), rfl,
        (show cur.countP (fun v => decide (v = target)) + (right - right)
          = cur.countP (fun v => decide (v = target)) by omega),
        Or.inl (by omega)⟩
  | succ fuel ih =>
      intro cur right cnt hb
      rw [ffEast_succ]
      by_cases h : cur.getD right 0 = target
      · rw [if_pos h]
        have hr : right < cur.length := by omega
        have hb2 : right + 1 + fuel ≤ (cur.set right fill).length := by
          simp; omega
        obtain ⟨stop, hst, hlb, hub, hold, hnew, hunch, hcnt, hlen2, hcp, hbd⟩ :=
          ih (cur.set right fill) (right + 1) (cnt + 1) hb2
        refine ⟨stop, hst, by omega, by omega, ?_, ?_, ?_, ?_, ?_, ?_, ?_⟩
        · intro j h1 h2
          by_cases hjr : j = right
          · rw [hjr]; exact h
          · have := hold j (by omega) h2
            rw [getD_set_ne cur right j fill (by omega)] at this
            exact this
        · intro j h1 h2
          by_cases hjr : j = right
          · subst hjr
            rw [hunch j (Or.inl (by omega))]
            exact getD_set_self cur j fill hr
          · rw [hnew j (by omega) h2]
        · intro j hj
          rcases hj with hj | hj
          · rw [hunch j (Or.inl (by omega))]
            exact getD_set_ne cur right j fill (by omega)
          · rw [hunch j (Or.inr (by omega))]
            exact getD_set_ne cur right j fill (by omega)
        · rw [hcnt]; omega
        · rw [hlen2]; simp
        · have := countP_set_of (fun v => decide (v = target)) cur right fill hr
            (by rw [h]; simp) (by simp [Ne.symm htf])
          omega
        · rcases hbd with hbd | hbd
          · left; omega
          · right
            rw [getD_set_ne cur right stop fill (by omega)] at hbd
            exact hbd
      · rw [if_neg h]
        exact ⟨right, rfl, le_rfl, by omega, fun j h1 h2 => absurd h2 (by omega),
          fun j h1 h2 => absurd h2 (by omega), fun j hj => rfl,
          (show cnt = cnt + (right - right) by omega), rfl,
          (show cur.countP (fun v => decide (v = target)) + (right - right)
            = cur.countP (fun v => decide (v = target)) by omega),
          Or.inr h⟩

/-- 4-connectivity on linear pixel indices of a W×H raster: horizontal
neighbours must share a row, vertical neighbours differ by exactly W;
both endpoints in-image. -/
def adjIdx (W H : ℕ) (i j : ℕ) : Prop :=
  i < W * H ∧ j < W * H ∧
    ((i / W = j / W ∧ (j = i + 1 ∨ i = j + 1)) ∨ j = i + W ∨ i = j + W)

/-- One flood-fill step over buffer `g`: move to a 4-neighbour whose word
is `v`. -/
def ffStep (g : List ℕ) (v W H : ℕ) (i j : ℕ) : Prop :=
  adjIdx W H i j ∧ g.getD j 0 = v

/-- The 4-connected component of the seed `s` through pixels of word `v`. -/
def Reach (g : List ℕ) (v W H s j : ℕ) : Prop :=
  Relation.ReflTransGen (ffStep g v W H) s j

theorem reach_bound (g : List ℕ) (v W H s j : ℕ) (hs : s < W * H)
    (h : Reach g v W H s j) : j < W * H := by
  induction h with
  | refl => exact hs
  | tail h1 h2 ih => exact h2.1.2.1

theorem reach_value (g : List ℕ) (v W H s j : ℕ) (hsv : g.getD s 0 = v)
    (h : Reach g v W H s j) : g.getD j 0 = v := by
  induction h with
  | refl => exact hsv
  | tail h1 h2 ih => exact h2.2

theorem div_eq_row (W y j : ℕ) (h1 : y * W ≤ j) (h2 : j < (y + 1) * W) :
    j / W = y := by
  have hW : 0 < W := by
    rcases Nat.eq_zero_or_pos W with h | h
    · subst h; omega
    · exact h
  have hle : y ≤ j / W := (Nat.le_div_iff_mul_le hW).2 h1
  have hcomm : (y + 1) * W = W * (y + 1) := Nat.mul_comm _ _
  have hlt : j / W < y + 1 := Nat.div_lt_of_lt_mul (by omega)
  omega

/-- Any pixel of a same-row run of `v`-valued pixels containing a reachable
pixel is itself reachable. -/
theorem reach_span (g : List ℕ) (v W H s : ℕ) (yL start endI : ℕ)
    (hrow1 : yL * W ≤ start) (hrow2 : endI < (yL + 1) * W) (hyH : yL < H)
    (hv : ∀ j, start ≤ j → j ≤ endI → g.getD j 0 = v)
    (i : ℕ) (hi1 : start ≤ i) (hi2 : i ≤ endI) (hC : Reach g v W H s i) :
    ∀ j, start ≤ j → j ≤ endI → Reach g v W H s j := by
  have hbnd : ∀ j, start ≤ j → j ≤ endI → j < W * H := by
    intro j h1 h2
    have : j < (yL + 1) * W := by omega
    have : (yL + 1) * W ≤ H * W := Nat.mul_le_mul_right W (by omega)
    have := Nat.mul_comm H W
    omega
  have hdiv : ∀ j, start ≤ j → j ≤ endI → j / W = yL := by
    intro j h1 h2
    exact div_eq_row W yL j (by omega) (by omega)
  have hstep : ∀ j, start ≤ j → j < endI → ffStep g v W H j (j + 1) := by
    intro j h1 h2
    exact ⟨⟨hbnd j h1 (by omega), hbnd (j + 1) (by omega) (by omega),
      Or.inl ⟨by rw [hdiv j h1 (by omega), hdiv (j + 1) (by omega) (by omega)],
        Or.inl rfl⟩⟩, hv (j + 1) (by omega) (by omega)⟩
  have hstep' : ∀ j, start < j → j ≤ endI → ffStep g v W H j (j - 1) := by
    intro j h1 h2
    refine ⟨⟨hbnd j (by omega) h2, hbnd (j - 1) (by omega) (by omega),
      Or.inl ⟨by rw [hdiv j (by omega) h2, hdiv (j - 1) (by omega) (by omega)],
        Or.inr (by omega)⟩⟩, hv (j - 1) (by omega) (by omega)⟩
  have east : ∀ d, i + d ≤ endI → Reach g v W H s (i + d) := by
    intro d
    induction d with
    | zero => intro _; exact hC
    | succ d ih =>
        intro hd
        exact Relation.ReflTransGen.tail (ih (by omega))
          (hstep (i + d) (by omega) (by omega))
  have west : ∀ d, d ≤ i - start → Reach g v W H s (i - d) := by
    intro d
    induction d with
    | zero => intro _; exact hC
    | succ d ih =>
        intro hd
        have h1 : i - (d + 1) = (i - d) - 1 := by omega
        rw [h1]
        exact Relation.ReflTransGen.tail (ih (by omega))
          (hstep' (i - d) (by omega) (by omega))
  intro j h1 h2
  rcases le_or_lt i j with hij | hij
  · have : j = i + (j - i) := by omega
    rw [this]; exact east (j - i) (by omega)
  · have : j = i - (i - j) := by omega
    rw [this]; exact west (i - j) (by omega)

theorem seedsAbove_mem (target W : ℕ) (cur : List ℕ) (start endI j : ℕ) :
    j ∈ seedsAbove target W cur start endI ↔
      ∃ xx, start ≤ xx ∧ xx ≤ endI ∧ j = xx - W ∧
        cur.getD (xx - W) 0 = target := by
  simp only [seedsAbove, List.mem_filterMap, List.mem_map, List.mem_range]
  constructor
  · rintro ⟨xx, ⟨k, hk, rfl⟩, hopt⟩
    split at hopt
    · rename_i hcond
      cases hopt
      exact ⟨start + k, by omega, by omega, rfl, hcond⟩
    · cases hopt
  · rintro ⟨xx, h1, h2, rfl, hcond⟩
    exact ⟨xx, ⟨xx - start, by omega, by omega⟩, by simp only [hcond, if_pos]⟩

theorem seedsBelow_mem (target W : ℕ) (cur : List ℕ) (start endI j : ℕ) :
    j ∈ seedsBelow target W cur start endI ↔
      ∃ xx, start ≤ xx ∧ xx ≤ endI ∧ j = xx + W ∧
        cur.getD (xx + W) 0 = target := by
  simp only [seedsBelow, List.mem_filterMap, List.mem_map, List.mem_range]
  constructor
  · rintro ⟨xx, ⟨k, hk, rfl⟩, hopt⟩
    split at hopt
    · rename_i hcond
      cases hopt
      exact ⟨start + k, by omega, by omega, rfl, hcond⟩
    · cases hopt
  · rintro ⟨xx, h1, h2, rfl, hcond⟩
    exact ⟨xx, ⟨xx - start, by omega, by omega⟩, by simp only [hcond, if_pos]⟩

/-- After filling the span `[start..endI]` of row `yL` (turning `cur` into
`cur2`), every path through `target`-valued pixels of `cur` that starts in
the span or at a surviving seed ends in the span or at a pixel reachable in
`cur2` from one of the freshly pushed (or surviving) seeds. -/
theorem path_transfer (W H target : ℕ)
    (cur cur2 : List ℕ) (start endI yL : ℕ) (hW : 0 < W)
    (hrow1 : yL * W ≤ start) (hrow2 : endI < (yL + 1) * W) (hyH : yL < H)
    (s3 : ∀ j, j < start ∨ endI < j → cur2.getD j 0 = cur.getD j 0)
    (s4 : yL * W = start ∨ cur.getD (start - 1) 0 ≠ target)
    (s5 : endI + 1 = yL * W + W ∨ cur.getD (endI + 1) 0 ≠ target)
    (newStack : List ℕ)
    (habove : ∀ xx, start ≤ xx → xx ≤ endI → W ≤ xx →
      cur2.getD (xx - W) 0 = target → (xx - W) ∈ newStack)
    (hbelow : ∀ xx, start ≤ xx → xx ≤ endI → xx + W < W * H →
      cur2.getD (xx + W) 0 = target → (xx + W) ∈ newStack) :
    ∀ p q, Relation.ReflTransGen (ffStep cur target W H) p q →
      ((start ≤ p ∧ p ≤ endI) ∨ (cur2.getD p 0 = target ∧
        ∃ r ∈ newStack, cur2.getD r 0 = target ∧
          Relation.ReflTransGen (ffStep cur2 target W H) r p)) →
      ((start ≤ q ∧ q ≤ endI) ∨ (cur2.getD q 0 = target ∧
        ∃ r ∈ newStack, cur2.getD r 0 = target ∧
          Relation.ReflTransGen (ffStep cur2 target W H) r q)) := by
  have e1 : (yL + 1) * W = yL * W + W := by ring
  have e2 : (yL + 1 + 1) * W = yL * W + 2 * W := by ring
  have step : ∀ n m, ffStep cur target W H n m →
      ((start ≤ n ∧ n ≤ endI) ∨ (cur2.getD n 0 = target ∧
        ∃ r ∈ newStack, cur2.getD r 0 = target ∧
          Relation.ReflTransGen (ffStep cur2 target W H) r n)) →
      ((start ≤ m ∧ m ≤ endI) ∨ (cur2.getD m 0 = target ∧
        ∃ r ∈ newStack, cur2.getD r 0 = target ∧
          Relation.ReflTransGen (ffStep cur2 target W H) r m)) := by
    rintro n m ⟨⟨hnB, hmB, hadj⟩, hmv⟩ hPn
    by_cases hmS : start ≤ m ∧ m ≤ endI
    · exact Or.inl hmS
    · have hm2v : cur2.getD m 0 = target := by
        rw [s3 m (by omega)]; exact hmv
      rcases hPn with hnS | ⟨hn2v, r, hrmem, hrv, hrpath⟩
      · have hnd : n / W = yL := div_eq_row W yL n (by omega) (by omega)
        rcases hadj with ⟨hsame, hhor⟩ | hv1 | hv2
        · rcases hhor with h1 | h1
          · have hme : m = endI + 1 := by omega
            rcases s5 with h5 | h5
            · have hmd : m / W = yL + 1 :=
                div_eq_row W (yL + 1) m (by omega) (by omega)
              omega
            · exact absurd (hme ▸ hmv) h5
          · have hms : m + 1 = start := by omega
            rcases s4 with h4 | h4
            · obtain ⟨k, hk⟩ : ∃ k, yL = k + 1 := by
                rcases Nat.eq_zero_or_pos yL with h0 | h0
                · rw [h0] at h4; simp at h4; omega
                · exact ⟨yL - 1, by omega⟩
              subst hk
              have e3 : (k + 1) * W = k * W + W := by ring
              have hmd : m / W = k :=
                div_eq_row W k m (by omega) (by omega)
              omega
            · exact absurd ((show m = start - 1 by omega) ▸ hmv) h4
        · have hmem : m ∈ newStack := by
            rw [hv1]
            exact hbelow n hnS.1 hnS.2 (by omega) (by rw [← hv1]; exact hm2v)
          exact Or.inr ⟨hm2v, m, hmem, hm2v, Relation.ReflTransGen.refl⟩
        · have hWn : W ≤ n := by omega
          have hmW : m = n - W := by omega
          have hmem : m ∈ newStack := by
            rw [hmW]
            exact habove n hnS.1 hnS.2 hWn (by rw [← hmW]; exact hm2v)
          exact Or.inr ⟨hm2v, m, hmem, hm2v, Relation.ReflTransGen.refl⟩
      · exact Or.inr ⟨hm2v, r, hrmem, hrv,
          Relation.ReflTransGen.tail hrpath ⟨⟨hnB, hmB, hadj⟩, hm2v⟩⟩
  intro p q hpq hP
  induction hpq with
  | refl => exact hP
  | tail h1 h2 ih => exact step _ _ h2 ih

theorem ffLoop_nil (target fill W H fuel : ℕ) (cur : List ℕ) (cnt : ℕ) :
    ffLoop target fill W H (fuel + 1) [] cur cnt = (cnt, cur) := rfl

theorem ffLoop_cons (target fill W H fuel i : ℕ) (rest cur : List ℕ) (cnt : ℕ) :
    ffLoop target fill W H (fuel + 1) (i :: rest) cur cnt =
      if cur.getD i 0 ≠ target then ffLoop target fill W H fuel rest cur cnt
      else
        ffLoop target fill W H fuel
          ((if i / W < H - 1 then
              seedsBelow target W
                (ffEast target fill (W - (i % W + 1))
                  (ffWest target fill (i % W) cur i cnt).1 (i + 1)
                  (ffWest target fill (i % W) cur i cnt).2.1).1
                (ffWest target fill (i % W) cur i cnt).2.2
                ((ffEast target fill (W - (i % W + 1))
                  (ffWest target fill (i % W) cur i cnt).1 (i + 1)
                  (ffWest target fill (i % W) cur i cnt).2.1).2.2 - 1)
            else []).reverse ++
            ((if 0 < i / W then
              seedsAbove target W
                (ffEast target fill (W - (i % W + 1))
                  (ffWest target fill (i % W) cur i cnt).1 (i + 1)
                  (ffWest target fill (i % W) cur i cnt).2.1).1
                (ffWest target fill (i % W) cur i cnt).2.2
                ((ffEast target fill (W - (i % W + 1))
                  (ffWest target fill (i % W) cur i cnt).1 (i + 1)
                  (ffWest target fill (i % W) cur i cnt).2.1).2.2 - 1)
            else []).reverse ++ rest))
          (ffEast target fill (W - (i % W + 1))
            (ffWest target fill (i % W) cur i cnt).1 (i + 1)
            (ffWest target fill (i % W) cur i cnt).2.1).1
          (ffEast target fill (W - (i % W + 1))
            (ffWest target fill (i % W) cur i cnt).1 (i + 1)
            (ffWest target fill (i % W) cur i cnt).2.1).2.1 := rfl

theorem ffLoop_spec (W H target fill : ℕ) (htf : target ≠ fill) (g0 : List ℕ)
    (s : ℕ) (hs : s < W * H) :
    ∀ (fuel : ℕ) (stack cur : List ℕ) (cnt : ℕ) (F : Finset ℕ),
      cur.length = W * H →
      stack.length + 2 * cur.countP (fun v => decide (v = target)) < fuel →
      (∀ j ∈ F, j < W * H ∧ Reach g0 target W H s j) →
      (∀ j, cur.getD j 0 = if j ∈ F then fill else g0.getD j 0) →
      cnt = F.card →
      (∀ p ∈ stack, p < W * H ∧ Reach g0 target W H s p) →
      (∀ j, Reach g0 target W H s j → j ∈ F ∨
        ∃ p ∈ stack, cur.getD p 0 = target ∧
          Relation.ReflTransGen (ffStep cur target W H) p j) →
      ∃ G : Finset ℕ,
        (∀ j ∈ G, j < W * H ∧ Reach g0 target W H s j) ∧
        (∀ j, Reach g0 target W H s j → j ∈ G) ∧
        (∀ j, (ffLoop target fill W H fuel stack cur cnt).2.getD j 0 =
          if j ∈ G then fill else g0.getD j 0) ∧
        (ffLoop target fill W H fuel stack cur cnt).1 = G.card ∧
        (ffLoop target fill W H fuel stack cur cnt).2.length = W * H := by
  intro fuel
  induction fuel with
  | zero => intro stack cur cnt F _ hm; omega
  | succ fuel ih =>
      intro stack cur cnt F hlen hm hF hb hc hd he
      match stack with
      | [] =>
          rw [ffLoop_nil]
          refine ⟨F, hF, ?_, hb, hc, hlen⟩
          intro j hj
          rcases he j hj with hjF | ⟨p, hp, _⟩
          · exact hjF
          · exact absurd hp (List.not_mem_nil p)
      | i :: rest =>
          by_cases hv : cur.getD i 0 = target
          case neg =>
            rw [ffLoop_cons, if_pos hv]
            refine ih rest cur cnt F hlen ?_ hF hb hc
              (fun p hp => hd p (List.mem_cons_of_mem i hp)) ?_
            · have hm' : rest.length + 1 +
                  2 * cur.countP (fun v => decide (v = target)) < fuel + 1 := by
                simpa using hm
              omega
            · intro j hj
              rcases he j hj with hjF | ⟨p, hp, hpv, hpath⟩
              · exact Or.inl hjF
              · rcases List.mem_cons.1 hp with rfl | hp
                · exact absurd hpv hv
                · exact Or.inr ⟨p, hp, hpv, hpath⟩
          case pos =>
            have hiB : i < W * H := (hd i (List.mem_cons_self i rest)).1
            have hiR : Reach g0 target W H s i := (hd i (List.mem_cons_self i rest)).2
            have hW : 0 < W := by
              rcases Nat.eq_zero_or_pos W with h0 | h0
              · rw [h0, Nat.zero_mul] at hiB; omega
              · exact h0
            have hicur : i < cur.length := by omega
            have hxLi : i % W ≤ i := Nat.mod_le i W
            have hcm : W * H = H * W := Nat.mul_comm _ _
            have hyH : i / W < H := (Nat.div_lt_iff_lt_mul hW).2 (by omega)
            have hid : i = i / W * W + i % W := by
              have h1 := Nat.div_add_mod i W
              have h2 : W * (i / W) = i / W * W := Nat.mul_comm _ _
              omega
            have hxW : i % W < W := Nat.mod_lt i hW
            obtain ⟨r, hrr⟩ : ∃ r, i % W = r := ⟨_, rfl⟩
            obtain ⟨q, hqq⟩ : ∃ q, i / W = q := ⟨_, rfl⟩
            rw [hrr] at hxLi hxW hid
            rw [hqq] at hyH hid
            obtain ⟨w1, hw1⟩ : ∃ w, ffWest target fill r cur i cnt = w :=
              ⟨_, rfl⟩
            obtain ⟨start, hst, hlbW, hubW, holdW, hnewW, hunchW, hcntW, hlenW,
              hcpW, hbdW⟩ :=
              ffWest_spec target fill htf r cur i cnt hxLi hicur hv
            rw [hw1] at hst hnewW hunchW hcntW hlenW hcpW
            have he2 : (q + 1) * W = q * W + W := by ring
            have hEb : (i + 1) + (W - (r + 1)) ≤ w1.1.length := by
              rw [hlenW, hlen]
              have h1 : (q + 1) * W ≤ H * W :=
                Nat.mul_le_mul_right W (by omega)
              omega
            obtain ⟨e1, he1⟩ :
                ∃ e, ffEast target fill (W - (r + 1)) w1.1 (i + 1) w1.2.1 = e :=
              ⟨_, rfl⟩
            obtain ⟨stop, hstE, hlbE, hubE, holdE, hnewE, hunchE, hcntE, hlenE,
              hcpE, hbdE⟩ :=
              ffEast_spec target fill htf (W - (r + 1)) w1.1 (i + 1) w1.2.1 hEb
            rw [he1] at hstE hnewE hunchE hcntE hlenE hcpE
            have hstart_i : start ≤ i := hubW
            have hstop_i : i + 1 ≤ stop := hlbE
            have hspanCur : ∀ j, start ≤ j → j ≤ stop - 1 →
                cur.getD j 0 = target := by
              intro j h1 h2
              rcases le_or_lt j i with hj | hj
              · exact holdW j h1 hj
              · have h3 := holdE j (by omega) (by omega)
                rw [hunchW j (Or.inr hj)] at h3
                exact h3
            have hspanFill : ∀ j, start ≤ j → j ≤ stop - 1 →
                e1.1.getD j 0 = fill := by
              intro j h1 h2
              rcases le_or_lt j i with hj | hj
              · rw [hunchE j (Or.inl (by omega))]
                exact hnewW j h1 hj
              · exact hnewE j (by omega) (by omega)
            have hout : ∀ j, j < start ∨ stop - 1 < j →
                e1.1.getD j 0 = cur.getD j 0 := by
              intro j hj
              rcases hj with hj | hj
              · rw [hunchE j (Or.inl (by omega))]
                exact hunchW j (Or.inl hj)
              · rw [hunchE j (Or.inr (by omega))]
                exact hunchW j (Or.inr (by omega))
            have hlen2 : e1.1.length = W * H := by rw [hlenE, hlenW]; exact hlen
            have hcp2 : e1.1.countP (fun v => decide (v = target)) + (stop - start)
                = cur.countP (fun v => decide (v = target)) := by omega
            have hcnt2 : e1.2.1 = cnt + (stop - start) := by omega
            have hrow1 : q * W ≤ start := by omega
            have hrow2 : stop - 1 < (q + 1) * W := by omega
            have hg0span : ∀ j, start ≤ j → j ≤ stop - 1 →
                g0.getD j 0 = target := by
              intro j h1 h2
              have hcur := hspanCur j h1 h2
              have h3 := hb j
              by_cases hjF : j ∈ F
              · rw [if_pos hjF] at h3
                rw [h3] at hcur
                exact absurd hcur (Ne.symm htf)
              · rw [if_neg hjF] at h3
                rw [← h3]
                exact hcur
            have hspanReach : ∀ j, start ≤ j → j ≤ stop - 1 →
                Reach g0 target W H s j :=
              reach_span g0 target W H s q start (stop - 1)
                hrow1 hrow2 hyH hg0span i hstart_i (by omega) hiR
            have hspanB : ∀ j, start ≤ j → j ≤ stop - 1 → j < W * H := by
              intro j h1 h2
              have h3 : (q + 1) * W ≤ H * W :=
                Nat.mul_le_mul_right W (by omega)
              omega
            have hdisj : Disjoint F (Finset.Icc start (stop - 1)) := by
              rw [Finset.disjoint_right]
              intro j hjI hjF
              have h1 := Finset.mem_Icc.1 hjI
              have hcur := hspanCur j h1.1 h1.2
              have h3 := hb j
              rw [if_pos hjF] at h3
              rw [h3] at hcur
              exact (Ne.symm htf) hcur
            have hcard' : (F ∪ Finset.Icc start (stop - 1)).card
                = F.card + (stop - start) := by
              rw [Finset.card_union_of_disjoint hdisj, Nat.card_Icc]
              omega
            rw [ffLoop_cons, if_neg (not_not_intro hv), hrr, hqq, hw1, he1,
              hst, hstE]
            refine ih _ _ _ (F ∪ Finset.Icc start (stop - 1)) hlen2 ?_ ?_ ?_ ?_ ?_ ?_
            · -- fuel measure
              have haboveLen :
                  (if 0 < q then
                    seedsAbove target W e1.1 start (stop - 1) else []).length
                    ≤ stop - start := by
                split
                · refine le_trans (le_trans (List.length_filterMap_le _ _) ?_)
                    (by omega : stop - 1 + 1 - start ≤ stop - start)
                  simp [seedsAbove]
                · simp
              have hbelowLen :
                  (if q < H - 1 then
                    seedsBelow target W e1.1 start (stop - 1) else []).length
                    ≤ stop - start := by
                split
                · refine le_trans (le_trans (List.length_filterMap_le _ _) ?_)
                    (by omega : stop - 1 + 1 - start ≤ stop - start)
                  simp [seedsBelow]
                · simp
              have hm' : rest.length + 1 +
                  2 * cur.countP (fun v => decide (v = target)) < fuel + 1 := by
                simpa using hm
              simp only [List.length_append, List.length_reverse]
              omega
            · -- F' in-bounds and reachable
              intro j hj
              rcases Finset.mem_union.1 hj with hj | hj
              · exact hF j hj
              · have h1 := Finset.mem_Icc.1 hj
                exact ⟨hspanB j h1.1 h1.2, hspanReach j h1.1 h1.2⟩
            · -- buffer characterisation
              intro j
              by_cases hjI : j ∈ Finset.Icc start (stop - 1)
              · have h1 := Finset.mem_Icc.1 hjI
                rw [if_pos (Finset.mem_union_right _ hjI)]
                exact hspanFill j h1.1 h1.2
              · have h1 : j < start ∨ stop - 1 < j := by
                  rw [Finset.mem_Icc] at hjI
                  omega
                rw [hout j h1, hb j]
                by_cases hjF : j ∈ F
                · rw [if_pos hjF, if_pos (Finset.mem_union_left _ hjF)]
                · rw [if_neg hjF, if_neg (fun h =>
                    (Finset.mem_union.1 h).elim hjF (fun h' => hjI h'))]
            · -- count
              rw [hcnt2, hcard', hc]
            · -- new stack elements reachable and in-bounds
              intro p hp
              rcases List.mem_append.1 hp with hp | hp
              · rw [List.mem_reverse] at hp
                by_cases hg : q < H - 1
                · rw [if_pos hg] at hp
                  obtain ⟨xx, hx1, hx2, rfl, hxv⟩ :=
                    (seedsBelow_mem target W e1.1 start (stop - 1) _).1 hp
                  have h5 : (q + 2) * W = q * W + 2 * W := by ring
                  have h3 : (q + 2) * W ≤ H * W :=
                    Nat.mul_le_mul_right W (by omega)
                  have hpB : xx + W < W * H := by omega
                  have hcurp : cur.getD (xx + W) 0 = target := by
                    rw [← hout (xx + W) (Or.inr (by omega))]
                    exact hxv
                  have hg0p : g0.getD (xx + W) 0 = target := by
                    have h4 := hb (xx + W)
                    by_cases hpf : xx + W ∈ F
                    · rw [if_pos hpf] at h4
                      rw [h4] at hcurp
                      exact absurd hcurp (Ne.symm htf)
                    · rw [if_neg hpf] at h4
                      rw [← h4]
                      exact hcurp
                  exact ⟨hpB, Relation.ReflTransGen.tail (hspanReach xx hx1 hx2)
                    ⟨⟨hspanB xx hx1 hx2, hpB, Or.inr (Or.inl rfl)⟩, hg0p⟩⟩
                · rw [if_neg hg] at hp
                  exact absurd hp (List.not_mem_nil _)
              · rcases List.mem_append.1 hp with hp | hp
                · rw [List.mem_reverse] at hp
                  by_cases hg : 0 < q
                  · rw [if_pos hg] at hp
                    obtain ⟨xx, hx1, hx2, rfl, hxv⟩ :=
                      (seedsAbove_mem target W e1.1 start (stop - 1) _).1 hp
                    have h7 : 1 * W ≤ q * W := Nat.mul_le_mul_right W hg
                    have hWxx : W ≤ xx := by omega
                    have hxxB : xx < W * H := hspanB xx hx1 hx2
                    have hpB : xx - W < W * H := by omega
                    have hcurp : cur.getD (xx - W) 0 = target := by
                      rw [← hout (xx - W) (Or.inl (by omega))]
                      exact hxv
                    have hg0p : g0.getD (xx - W) 0 = target := by
                      have h4 := hb (xx - W)
                      by_cases hpf : xx - W ∈ F
                      · rw [if_pos hpf] at h4
                        rw [h4] at hcurp
                        exact absurd hcurp (Ne.symm htf)
                      · rw [if_neg hpf] at h4
                        rw [← h4]
                        exact hcurp
                    exact ⟨hpB, Relation.ReflTransGen.tail (hspanReach xx hx1 hx2)
                      ⟨⟨hxxB, hpB, Or.inr (Or.inr (by omega))⟩, hg0p⟩⟩
                  · rw [if_neg hg] at hp
                    exact absurd hp (List.not_mem_nil _)
                · exact hd _ (List.mem_cons_of_mem i hp)
            · -- completeness
              intro j hjR
              rcases he j hjR with hjF | ⟨p, hp, hpv, hpath⟩
              · exact Or.inl (Finset.mem_union_left _ hjF)
              · have hnstAbove : ∀ xx, start ≤ xx → xx ≤ stop - 1 → W ≤ xx →
                    e1.1.getD (xx - W) 0 = target →
                    (xx - W) ∈ ((if q < H - 1 then
                        seedsBelow target W e1.1 start (stop - 1) else []).reverse ++
                      ((if 0 < q then
                        seedsAbove target W e1.1 start (stop - 1) else []).reverse
                        ++ rest)) := by
                  intro xx h1 h2 h3 h4
                  have h8 : 0 < q * W := by omega
                  have hg : 0 < q := by
                    by_contra hq0
                    push_neg at hq0
                    have h9 : q = 0 := by omega
                    rw [h9, Nat.zero_mul] at h8
                    omega
                  refine List.mem_append.2 (Or.inr (List.mem_append.2 (Or.inl ?_)))
                  rw [if_pos hg, List.mem_reverse]
                  exact (seedsAbove_mem target W e1.1 start (stop - 1) _).2
                    ⟨xx, h1, h2, rfl, h4⟩
                have hnstBelow : ∀ xx, start ≤ xx → xx ≤ stop - 1 →
                    xx + W < W * H →
                    e1.1.getD (xx + W) 0 = target →
                    (xx + W) ∈ ((if q < H - 1 then
                        seedsBelow target W e1.1 start (stop - 1) else []).reverse ++
                      ((if 0 < q then
                        seedsAbove target W e1.1 start (stop - 1) else []).reverse
                        ++ rest)) := by
                  intro xx h1 h2 h3 h4
                  have hg : q < H - 1 := by
                    by_contra hg0
                    push_neg at hg0
                    have h6 : (H - 1) * W ≤ q * W :=
                      Nat.mul_le_mul_right W hg0
                    have h7 : (H - 1) * W + W = H * W := by
                      cases H with
                      | zero => omega
                      | succ h => simp [Nat.succ_sub_one]; ring
                    omega
                  refine List.mem_append.2 (Or.inl ?_)
                  rw [if_pos hg, List.mem_reverse]
                  exact (seedsBelow_mem target W e1.1 start (stop - 1) _).2
                    ⟨xx, h1, h2, rfl, h4⟩
                have hs4 : q * W = start ∨ cur.getD (start - 1) 0 ≠ target := by
                  rcases hbdW with h4 | h4
                  · left; omega
                  · right; exact h4
                have hs5 : stop - 1 + 1 = q * W + W ∨
                    cur.getD (stop - 1 + 1) 0 ≠ target := by
                  rcases hbdE with h4 | h4
                  · left; omega
                  · right
                    rw [hunchW stop (Or.inr (by omega))] at h4
                    rw [(by omega : stop - 1 + 1 = stop)]
                    exact h4
                have hbase : (start ≤ p ∧ p ≤ stop - 1) ∨
                    (e1.1.getD p 0 = target ∧
                      ∃ r' ∈ ((if q < H - 1 then
                          seedsBelow target W e1.1 start (stop - 1) else []).reverse ++
                        ((if 0 < q then
                          seedsAbove target W e1.1 start (stop - 1) else []).reverse
                          ++ rest)),
                        e1.1.getD r' 0 = target ∧
                        Relation.ReflTransGen (ffStep e1.1 target W H) r' p) := by
                  rcases List.mem_cons.1 hp with rfl | hp'
                  · exact Or.inl ⟨hstart_i, by omega⟩
                  · by_cases hpI : start ≤ p ∧ p ≤ stop - 1
                    · exact Or.inl hpI
                    · have h1 : p < start ∨ stop - 1 < p := by omega
                      have h2 : e1.1.getD p 0 = target := by
                        rw [hout p h1]
                        exact hpv
                      exact Or.inr ⟨h2, p,
                        List.mem_append.2 (Or.inr (List.mem_append.2 (Or.inr hp'))),
                        h2, Relation.ReflTransGen.refl⟩
                have htr := path_transfer W H target cur e1.1 start (stop - 1)
                  q hW hrow1 hrow2 hyH hout hs4 hs5 _ hnstAbove hnstBelow
                  p j hpath hbase
                rcases htr with hjS | ⟨_, r', hrmem, hrv, hrpath⟩
                · exact Or.inl (Finset.mem_union_right _
                    (Finset.mem_Icc.2 ⟨hjS.1, hjS.2⟩))
                · exact Or.inr ⟨r', hrmem, hrv, hrpath⟩

theorem countP_range_card (n : ℕ) (p : ℕ → Bool) :
    (List.range n).countP p = ((Finset.range n).filter (fun j => p j = true)).card := by
  induction n with
  | zero => simp
  | succ n ih =>
      rw [List.range_succ, List.countP_append, ih, Finset.range_succ,
        Finset.filter_insert]
      by_cases h : p n = true
      · rw [if_pos h, Finset.card_insert_of_not_mem (by simp)]
        simp [List.countP, List.countP.go, h]
      · rw [if_neg h]
        simp [List.countP, List.countP.go, h]

theorem countP_eq_card_of (n : ℕ) (p : ℕ → Bool) (F : Finset ℕ)
    (h : ∀ j, j < n → (p j = true ↔ j ∈ F)) (hF : ∀ j ∈ F, j < n) :
    (List.range n).countP p = F.card := by
  rw [countP_range_card]
  refine congrArg Finset.card (Finset.ext fun j => ?_)
  simp only [Finset.mem_filter, Finset.mem_range]
  constructor
  · rintro ⟨h1, h2⟩
    exact (h j h1).1 h2
  · intro hj
    exact ⟨hF j hj, (h j (hF j hj)).2 hj⟩

theorem floodFillFrom_oob (img : Img) (x y : ℤ) (r g b a : ℕ)
    (h : x < 0 ∨ y < 0 ∨ (img.width : ℤ) ≤ x ∨ (img.height : ℤ) ≤ y) :
    floodFillFrom img x y r g b a = (0, img) := by
  unfold floodFillFrom
  rw [if_pos h]

theorem floodFillFrom_noop (img : Img) (x y : ℤ) (r g b a : ℕ)
    (h : ¬ (x < 0 ∨ y < 0 ∨ (img.width : ℤ) ≤ x ∨ (img.height : ℤ) ≤ y))
    (h2 : img.pixels.getD (y.toNat * img.width + x.toNat) 0 = wordOf r g b a) :
    floodFillFrom img x y r g b a = (0, img) := by
  unfold floodFillFrom
  rw [if_neg h]
  show (if img.pixels.getD (y.toNat * img.width + x.toNat) 0 = wordOf r g b a
    then ((0 : ℕ), img) else _) = ((0 : ℕ), img)
  rw [if_pos h2]

theorem floodFillFrom_run (img : Img) (x y : ℤ) (r g b a : ℕ)
    (h : ¬ (x < 0 ∨ y < 0 ∨ (img.width : ℤ) ≤ x ∨ (img.height : ℤ) ≤ y))
    (h2 : img.pixels.getD (y.toNat * img.width + x.toNat) 0 ≠ wordOf r g b a) :
    floodFillFrom img x y r g b a =
      ((ffLoop (img.pixels.getD (y.toNat * img.width + x.toNat) 0)
          (wordOf r g b a) img.width img.height
          (2 * img.width * img.height + 2)
          [y.toNat * img.width + x.toNat] img.pixels 0).1,
        ⟨img.width, img.height,
          (ffLoop (img.pixels.getD (y.toNat * img.width + x.toNat) 0)
            (wordOf r g b a) img.width img.height
            (2 * img.width * img.height + 2)
            [y.toNat * img.width + x.toNat] img.pixels 0).2⟩) := by
  unfold floodFillFrom
  rw [if_neg h]
  show (if img.pixels.getD (y.toNat * img.width + x.toNat) 0 = wordOf r g b a
    then ((0 : ℕ), img) else _) = _
  rw [if_neg h2]

theorem floodFillFrom_spec (img : Img) (x y : ℤ) (r g b a : ℕ)
    (hlen : img.pixels.length = img.width * img.height)
    (h : ¬ (x < 0 ∨ y < 0 ∨ (img.width : ℤ) ≤ x ∨ (img.height : ℤ) ≤ y))
    (h2 : img.pixels.getD (y.toNat * img.width + x.toNat) 0 ≠ wordOf r g b a) :
    ∃ G : Finset ℕ,
      (∀ j ∈ G, j < img.width * img.height ∧
        Reach img.pixels (img.pixels.getD (y.toNat * img.width + x.toNat) 0)
          img.width img.height (y.toNat * img.width + x.toNat) j) ∧
      (∀ j, Reach img.pixels (img.pixels.getD (y.toNat * img.width + x.toNat) 0)
          img.width img.height (y.toNat * img.width + x.toNat) j → j ∈ G) ∧
      (∀ j, (floodFillFrom img x y r g b a).2.pixels.getD j 0 =
        if j ∈ G then wordOf r g b a else img.pixels.getD j 0) ∧
      (floodFillFrom img x y r g b a).1 = G.card := by
  have h' := h
  push_neg at h'
  obtain ⟨hx0, hy0, hxW, hyH'⟩ := h'
  have hxlt : x.toNat < img.width := by omega
  have hylt : y.toNat < img.height := by omega
  have hi0 : y.toNat * img.width + x.toNat < img.width * img.height := by
    have e1 : (y.toNat + 1) * img.width = y.toNat * img.width + img.width := by
      ring
    have e2 : (y.toNat + 1) * img.width ≤ img.height * img.width :=
      Nat.mul_le_mul_right _ (by omega)
    have e3 : img.width * img.height = img.height * img.width := Nat.mul_comm _ _
    omega
  have hcle : img.pixels.countP (fun v =>
      decide (v = img.pixels.getD (y.toNat * img.width + x.toNat) 0))
      ≤ img.pixels.length := List.countP_le_length _
  have e4 : 2 * img.width * img.height = 2 * (img.width * img.height) := by ring
  obtain ⟨G, hG1, hG2, hG3, hG4, hG5⟩ :=
    ffLoop_spec img.width img.height
      (img.pixels.getD (y.toNat * img.width + x.toNat) 0) (wordOf r g b a)
      h2 img.pixels (y.toNat * img.width + x.toNat) hi0
      (2 * img.width * img.height + 2) [y.toNat * img.width + x.toNat]
      img.pixels 0 ∅ hlen
      (by
        show 1 + 2 * img.pixels.countP (fun v =>
          decide (v = img.pixels.getD (y.toNat * img.width + x.toNat) 0))
          < 2 * img.width * img.height + 2
        omega)
      (fun j hj => absurd hj (Finset.not_mem_empty j))
      (fun j => by rw [if_neg (Finset.not_mem_empty j)])
      (Finset.card_empty).symm
      (fun p hp => by
        rcases List.mem_cons.1 hp with rfl | hp'
        · exact ⟨hi0, Relation.ReflTransGen.refl⟩
        · exact absurd hp' (List.not_mem_nil p))
      (fun j hjR => Or.inr ⟨y.toNat * img.width + x.toNat,
        List.mem_cons_self _ _, rfl, hjR⟩)
  refine ⟨G, hG1, hG2, ?_, ?_⟩
  · intro j
    rw [floodFillFrom_run img x y r g b a h h2]
    exact hG3 j
  · rw [floodFillFrom_run img x y r g b a h h2]
    exact hG4

/-- **C6**: `floodFillFrom` (src/classes/png.js) is fully correct: an
out-of-image seed returns 0 and leaves the image unchanged; if the seed's
32-bit word already equals the fill word the call is a no-op returning 0;
otherwise exactly the pixels of the 4-connected component of the seed whose
word equals the seed's original word are set to the fill word, everything
else is untouched, the returned number equals the count of pixels actually
changed, and a second call with the same arguments returns 0 and changes
nothing. -/
theorem c6_flood_fill_correct (img : Img) (x y : ℤ) (r g b a : ℕ)
    (hlen : img.pixels.length = img.width * img.height) :
    ((x < 0 ∨ y < 0 ∨ (img.width : ℤ) ≤ x ∨ (img.height : ℤ) ≤ y) →
      floodFillFrom img x y r g b a = (0, img)) ∧
    (img.pixels.getD (y.toNat * img.width + x.toNat) 0 = wordOf r g b a →
      floodFillFrom img x y r g b a = (0, img)) ∧
    (∀ j, Reach img.pixels
        (img.pixels.getD (y.toNat * img.width + x.toNat) 0)
        img.width img.height (y.toNat * img.width + x.toNat) j →
      ¬ (x < 0 ∨ y < 0 ∨ (img.width : ℤ) ≤ x ∨ (img.height : ℤ) ≤ y) →
      (floodFillFrom img x y r g b a).2.pixels.getD j 0 = wordOf r g b a) ∧
    (∀ j, ¬ Reach img.pixels
        (img.pixels.getD (y.toNat * img.width + x.toNat) 0)
        img.width img.height (y.toNat * img.width + x.toNat) j →
      (floodFillFrom img x y r g b a).2.pixels.getD j 0 =
        img.pixels.getD j 0) ∧
    (floodFillFrom img x y r g b a).1 =
      (List.range (img.width * img.height)).countP
        (fun j => decide ((floodFillFrom img x y r g b a).2.pixels.getD j 0 ≠
          img.pixels.getD j 0)) ∧
    floodFillFrom (floodFillFrom img x y r g b a).2 x y r g b a =
      (0, (floodFillFrom img x y r g b a).2) := by
  by_cases hob : x < 0 ∨ y < 0 ∨ (img.width : ℤ) ≤ x ∨ (img.height : ℤ) ≤ y
  · have hrw := floodFillFrom_oob img x y r g b a hob
    refine ⟨fun _ => hrw, fun _ => hrw, ?_, ?_, ?_, ?_⟩
    · intro j _ hnob
      exact absurd hob hnob
    · intro j _
      rw [hrw]
    · rw [hrw]
      simp
    · rw [hrw]
      exact hrw
  · by_cases htf0 : img.pixels.getD (y.toNat * img.width + x.toNat) 0 =
        wordOf r g b a
    · have hrw := floodFillFrom_noop img x y r g b a hob htf0
      refine ⟨fun hoo => absurd hoo hob, fun _ => hrw, ?_, ?_, ?_, ?_⟩
      · intro j hR _
        rw [hrw]
        exact (reach_value _ _ _ _ _ _ rfl hR).trans htf0
      · intro j _
        rw [hrw]
      · rw [hrw]
        simp
      · rw [hrw]
        exact hrw
    · obtain ⟨G, hG1, hG2, hG3, hG4⟩ :=
        floodFillFrom_spec img x y r g b a hlen hob htf0
      refine ⟨fun hoo => absurd hoo hob, fun h' => absurd h' htf0, ?_, ?_, ?_, ?_⟩
      · intro j hR _
        rw [hG3 j, if_pos (hG2 j hR)]
      · intro j hnR
        rw [hG3 j, if_neg (fun hjG => hnR (hG1 j hjG).2)]
      · rw [hG4]
        refine (countP_eq_card_of (img.width * img.height) _ G ?_
          (fun j hj => (hG1 j hj).1)).symm
        intro j hjn
        constructor
        · intro hdec
          by_contra hjG
          rw [hG3 j, if_neg hjG] at hdec
          simp at hdec
        · intro hjG
          rw [hG3 j, if_pos hjG]
          have hold : img.pixels.getD j 0 =
              img.pixels.getD (y.toNat * img.width + x.toNat) 0 :=
            reach_value _ _ _ _ _ _ rfl (hG1 j hjG).2
          rw [hold]
          exact decide_eq_true (fun hfe => htf0 hfe.symm)
      · have hwd : (floodFillFrom img x y r g b a).2.width = img.width := by
          rw [floodFillFrom_run img x y r g b a hob htf0]
        have hht : (floodFillFrom img x y r g b a).2.height = img.height := by
          rw [floodFillFrom_run img x y r g b a hob htf0]
        have hob2 : ¬ (x < 0 ∨ y < 0 ∨
            ((floodFillFrom img x y r g b a).2.width : ℤ) ≤ x ∨
            ((floodFillFrom img x y r g b a).2.height : ℤ) ≤ y) := by
          rw [hwd, hht]
          exact hob
        have hseed : (floodFillFrom img x y r g b a).2.pixels.getD
            (y.toNat * (floodFillFrom img x y r g b a).2.width + x.toNat) 0 =
            wordOf r g b a := by
          rw [hwd, hG3 _, if_pos (hG2 _ Relation.ReflTransGen.refl)]
        exact floodFillFrom_noop _ x y r g b a hob2 hseed

theorem c6_flood_fill_correct_witness :
    (⟨2, 1, [3, 3]⟩ : Img).pixels.length =
      (⟨2, 1, [3, 3]⟩ : Img).width * (⟨2, 1, [3, 3]⟩ : Img).height ∧
    floodFillFrom (floodFillFrom ⟨2, 1, [3, 3]⟩ 0 0 9 0 0 0).2 0 0 9 0 0 0 =
      (0, (floodFillFrom ⟨2, 1, [3, 3]⟩ 0 0 9 0 0 0).2) :=
  ⟨by decide,
    (c6_flood_fill_correct ⟨2, 1, [3, 3]⟩ 0 0 9 0 0 0 (by decide)).2.2.2.2.2⟩
